import Mathlib

/-!
# BMFtools: family accumulator (KingFisher), consensus caller and sharder

A shallow embedding of `src/src/dmp/dmp.h`, of `cp_view2buf` in `src/src/bmf_hashdmp.h`, of
`splitmark_core_rescale` and the descriptor-limit check of `fqms_main`
(`src/src/bmf_sdmp.c`), and of the comparator `fm_cmp` (`src/src/bmf_famstats.cpp`).

Conventions of the embedding
* a C `char` is a `Char`; where the code does arithmetic on a `char`
  (`qual.s[i] - 33`, `qual.s[i] > max_phreds[i]`) the byte is read through
  `char_to_int`, the value of a signed 8-bit `char`;
* a C `double` is a rational number: every value the accumulator stores is a sum
  of small integers, which doubles represent exactly; the product that
  `pvalue_to_phred` converts to `int` is rounded to a `double` by `round_double`;
* a C `int` is an `Int`; signed overflow (a family of 2^31 reads) is outside the
  embedding;
* a heap array is a `List` of its allocated size.  A load outside the allocation
  reads the default value and a store outside the allocation leaves the list as
  it is; the index of every store is computed exactly as in the source, so an
  out-of-bounds index is visible (`phred_sum_index`).
* `log10` (libm) and `igamc` (cephes) are external and are parameters.
* an input stream of the sharder is the `List` of its records; `uint64_t` and the
  conversion to a 32-bit `int` in `fm_cmp` are written with explicit `% 2 ^ 64`
  and `% 2 ^ 32`.
-/

namespace BMF

/-! ## Array helpers -/

/-- Store through index `n`: `l[n] = f l[n]`; nothing is stored when `n` is outside `l`. -/
def updAt {α : Type} (f : α → α) : List α → Nat → List α
  | [], _ => []
  | x :: xs, 0 => f x :: xs
  | x :: xs, n + 1 => x :: updAt f xs n

/-- Value of a C `char` (signed, 8 bits) converted to `int`. -/
def char_to_int (c : Char) : Int :=
  if c.toNat < 128 then (c.toNat : Int) else (c.toNat : Int) - 256

/-- The NUL byte. -/
def NUL : Char := Char.ofNat 0

/-- The `n` bytes at `src + start`; past the stored bytes of a kstring its terminating NUL
is read. -/
def read_bytes (src : List Char) (start n : Nat) : List Char :=
  (List.range n).map (fun k => src.getD (start + k) NUL)

/-! ## Data model -/

/-- The two strings of a `kseq_t` record that the accumulator reads:
`seq.s` (bases) and `qual.s` (Phred+33 quality bytes). -/
structure kseq_t where
  seq : List Char
  qual : List Char
  deriving DecidableEq

/-- Byte `s[i]` of a kstring; past the stored bytes the terminating NUL is read. -/
def kseq_t.seq_at (r : kseq_t) (i : Nat) : Char := r.seq.getD i NUL

/-- Byte `qual.s[i]`. -/
def kseq_t.qual_at (r : kseq_t) (i : Nat) : Char := r.qual.getD i NUL

/-- The `KingFisher_t` aggregate (dmp.h:58-64). -/
structure KingFisher_t where
  nuc_counts : List (List Int)
  phred_sums : List (List ℚ)
  length : Int
  readlen : Nat
  max_phreds : List Char
  deriving DecidableEq

/-- Load `kfp->nuc_counts[i][j]`. -/
def KingFisher_t.count (kfp : KingFisher_t) (i j : Nat) : Int :=
  (kfp.nuc_counts.getD i []).getD j 0

/-- Load `kfp->phred_sums[i][j]`. -/
def KingFisher_t.psum (kfp : KingFisher_t) (i j : Nat) : ℚ :=
  (kfp.phred_sums.getD i []).getD j 0

/-- Load `kfp->max_phreds[i]`. -/
def KingFisher_t.maxq (kfp : KingFisher_t) (i : Nat) : Char :=
  kfp.max_phreds.getD i NUL

/-- The allocation shape set up by `init_kf`: `readlen` rows of 5 counts, `readlen`
rows of 4 sums, and `readlen + 1` quality bytes of which the last one, never written
after `calloc`, is the NUL that terminates the string. -/
def KingFisher_t.shaped (kfp : KingFisher_t) : Prop :=
  kfp.nuc_counts.length = kfp.readlen ∧ (∀ row ∈ kfp.nuc_counts, row.length = 5) ∧
  kfp.phred_sums.length = kfp.readlen ∧ (∀ row ∈ kfp.phred_sums, row.length = 4) ∧
  kfp.max_phreds.length = kfp.readlen + 1 ∧ kfp.max_phreds.getD kfp.readlen NUL = NUL

/-- The `NUC_TO_POS` macro (dmp.h:48-55): the pair `(nuc_indices[0], nuc_indices[1])`. -/
def NUC_TO_POS (character : Char) : Nat × Nat :=
  match character with
  | 'A' => (0, 0)
  | 'C' => (1, 1)
  | 'G' => (2, 2)
  | 'T' => (3, 3)
  | _ => (0, 4)

/-- Function `init_kf` (dmp.h:66-81). -/
def init_kf (readlen : Nat) : KingFisher_t :=
  { nuc_counts := List.replicate readlen (List.replicate 5 0)
    phred_sums := List.replicate readlen (List.replicate 4 0)
    length := 0
    readlen := readlen
    max_phreds := List.replicate (readlen + 1) NUL }

/-- One iteration `i` of the loop of `clear_kf` (dmp.h:94-97). -/
def clear_kf_step (kfp : KingFisher_t) (i : Nat) : KingFisher_t :=
  { kfp with
    nuc_counts := updAt (fun row => List.replicate (min 5 row.length) 0 ++ row.drop 5) kfp.nuc_counts i
    phred_sums := updAt (fun row => List.replicate (min 4 row.length) 0 ++ row.drop 4) kfp.phred_sums i }

/-- Function `clear_kf` (dmp.h:93-101). -/
def clear_kf (kfp : KingFisher_t) : KingFisher_t :=
  let k := (List.range kfp.readlen).foldl clear_kf_step kfp
  { k with
    max_phreds := List.replicate (min k.readlen k.max_phreds.length) NUL ++ k.max_phreds.drop k.readlen
    length := 0 }

/-- Index of the count slot that iteration `i` of `pushback_kseq` increments (dmp.h:115). -/
def nuc_count_index (seq : kseq_t) (i : Nat) : Nat := (NUC_TO_POS (seq.seq_at i)).1

/-- Index of the weight-sum slot that iteration `i` of `pushback_kseq` adds to (dmp.h:116). -/
def phred_sum_index (seq : kseq_t) (i : Nat) : Nat := (NUC_TO_POS (seq.seq_at i)).2

/-- One iteration `i` of the loop of `pushback_kseq` (dmp.h:114-119). -/
def pushback_step (seq : kseq_t) (kfp : KingFisher_t) (i : Nat) : KingFisher_t :=
  let nuc_indices := NUC_TO_POS (seq.seq_at i)
  let k1 : KingFisher_t :=
    { kfp with nuc_counts := updAt (fun row => updAt (fun c => c + 1) row nuc_indices.1) kfp.nuc_counts i }
  let q : ℚ := ((char_to_int (seq.qual_at i) - 33 : Int) : ℚ)
  let k2 : KingFisher_t :=
    { k1 with phred_sums := updAt (fun row => updAt (fun s => s + q) row nuc_indices.2) k1.phred_sums i }
  if char_to_int (seq.qual_at i) > char_to_int (k2.maxq i) then
    { k2 with max_phreds := updAt (fun _ => seq.qual_at i) k2.max_phreds i }
  else k2

/-- Function `pushback_kseq` (dmp.h:112-123). -/
def pushback_kseq (kfp : KingFisher_t) (seq : kseq_t) : KingFisher_t :=
  let k := (List.range kfp.readlen).foldl (pushback_step seq) kfp
  { k with length := k.length + 1 }

/-- Aggregates obtained from `init_kf readlen` by finitely many `pushback_kseq` and
`clear_kf` calls. -/
inductive Reachable (readlen : Nat) : KingFisher_t → Prop
  | init : Reachable readlen (init_kf readlen)
  | push (kfp : KingFisher_t) (seq : kseq_t) : Reachable readlen kfp → Reachable readlen (pushback_kseq kfp seq)
  | clear (kfp : KingFisher_t) : Reachable readlen kfp → Reachable readlen (clear_kf kfp)

/-- Bytes of a string literal. -/
def cstr (s : String) : List Char := s.toList

/-- A family: the reads accumulated one after the other into a fresh aggregate. -/
def accumulate (readlen : Nat) (reads : List kseq_t) : KingFisher_t :=
  reads.foldl pushback_kseq (init_kf readlen)

/-! ## Consensus caller -/

/-- The constant `LOG10E_X5_INV` (dmp.h:15), the decimal expansion of ln(10)/5. -/
def LOG10E_X5_INV : ℚ :=
  0.460517018598809136803598290936872841520220297725754595206665580193514521935470496

/-- The `LOG10_TO_CHI2` macro (dmp.h:18). -/
def LOG10_TO_CHI2 (x : ℚ) : ℚ := x * LOG10E_X5_INV

/-- Function `igamc_pvalues` (dmp.h:38-46); `igamc` is the external cephes routine. -/
def igamc_pvalues (igamc : ℚ → ℚ → ℚ) (num_pvalues : Int) (x : ℚ) : ℚ :=
  if x < 0 then 1 else igamc (num_pvalues : ℚ) (x / 2)

/-- Function `ARRG_MAX` (dmp.h:145-168). -/
def ARRG_MAX (kfp : KingFisher_t) (index : Nat) : Nat :=
  if kfp.psum index 3 > kfp.psum index 2 ∧
     kfp.psum index 3 > kfp.psum index 1 ∧
     kfp.psum index 3 > kfp.psum index 0 then 3
  else if kfp.psum index 2 > kfp.psum index 1 ∧
          kfp.psum index 2 > kfp.psum index 0 then 2
  else if kfp.psum index 1 > kfp.psum index 0 then 1
  else 0

/-- Function `ARRG_MAX_TO_NUC` (dmp.h:170-177). -/
def ARRG_MAX_TO_NUC (argmaxret : Nat) : Char :=
  match argmaxret with
  | 1 => 'C'
  | 2 => 'G'
  | 3 => 'T'
  | _ => 'A'

/-! ## Rounding of `double` arithmetic -/

/-- The power `2^k` of two for an integer exponent, as a rational. -/
def pow2 (k : Int) : ℚ :=
  if 0 ≤ k then ((2 ^ k.toNat : Nat) : ℚ) else 1 / ((2 ^ (-k).toNat : Nat) : ℚ)

/-- Number of halvings that take `n` below 2, by recursion on `fuel`. -/
def bit_length_loop : Nat → Nat → Nat
  | 0, _ => 0
  | fuel + 1, n => if 2 ≤ n then bit_length_loop fuel (n / 2) + 1 else 0

/-- The binary exponent of a positive rational `a`: the integer `e` with
`2^e ≤ a < 2^(e+1)`. -/
def binary_exponent (a : ℚ) : Int :=
  let e0 : Int :=
    (bit_length_loop a.num.natAbs a.num.natAbs : Int) - (bit_length_loop a.den a.den : Int)
  if pow2 e0 ≤ a then e0 else e0 - 1

/-- The value of a `double` operation whose exact result is `x`: `x` rounded to the nearest
number with a 53-bit significand, ties to the even significand (IEEE 754 binary64, round
to nearest even).  The exponent range is not bounded: overflow and subnormal numbers are
outside the embedding. -/
def round_double (x : ℚ) : ℚ :=
  if x = 0 then 0
  else
    let ulp : ℚ := pow2 (binary_exponent |x| - 52)
    let q : ℚ := x / ulp
    let f : Int := ⌊q⌋
    let n : Int :=
      if q - f < 1 / 2 then f
      else if 1 / 2 < q - f then f + 1
      else if f % 2 = 0 then f else f + 1
    n * ulp

/-- The C conversion `(int)x` of a `double`: the fractional part is discarded
(truncation toward zero). -/
def double_to_int {R : Type} [LinearOrderedField R] [FloorRing R] (x : R) : Int :=
  if 0 ≤ x then ⌊x⌋ else ⌈x⌉

/-- Function `pvalue_to_phred` (dmp.h:179-181); `log10` is the libm routine, whose result
is a `double`; the product `-10 * log10(pvalue)` is a `double` operation, rounded by
`round_double`, and the cast discards the fraction of the rounded product. -/
def pvalue_to_phred (log10 : ℚ → ℚ) (pvalue : ℚ) : Int :=
  double_to_int (round_double (-10 * log10 pvalue))

/-- The p-value of position `i` in the loop of `dmp_process_write` (dmp.h:215): the
argument handed to `pvalue_to_phred`. -/
def dmp_pvalue (igamc : ℚ → ℚ → ℚ) (kfp : KingFisher_t) (i : Nat) : ℚ :=
  igamc_pvalues igamc kfp.length (LOG10_TO_CHI2 (kfp.psum i (ARRG_MAX kfp i)))

/-- The array `cons_seq` after the loop of `dmp_process_write` (dmp.h:212-217). -/
def dmp_cons_seq (kfp : KingFisher_t) : List Char :=
  (List.range kfp.readlen).map (fun i => ARRG_MAX_TO_NUC (ARRG_MAX kfp i))

/-- The array `cons_quals` after the loop of `dmp_process_write` (dmp.h:212-217). -/
def dmp_cons_quals (log10 : ℚ → ℚ) (igamc : ℚ → ℚ → ℚ) (kfp : KingFisher_t) : List Int :=
  (List.range kfp.readlen).map (fun i => pvalue_to_phred log10 (dmp_pvalue igamc kfp i))

/-- The array `agrees` after the loop of `dmp_process_write` (dmp.h:212-217). -/
def dmp_agrees (kfp : KingFisher_t) : List Int :=
  (List.range kfp.readlen).map (fun i => kfp.count i (ARRG_MAX kfp i))

/-- The C string at a buffer: its bytes before the first NUL. -/
def c_string (s : List Char) : List Char := s.takeWhile (fun c => c != NUL)

/-- Output of the `%i` conversion. -/
def fmt_int (n : Int) : List Char := (toString n).toList

/-- Function `fill_csv_buffer` (dmp.h:183-190): the string left in `buffer`. -/
def fill_csv_buffer (readlen : Nat) (arr : List Int) (pfx : List Char) : List Char :=
  (List.range readlen).foldl (fun buffer i => buffer ++ (',' :: fmt_int (arr.getD i 0))) pfx

/-- Function `fill_pv_buffer` (dmp.h:192-195). -/
def fill_pv_buffer (kfp : KingFisher_t) (phred_values : List Int) : List Char :=
  fill_csv_buffer kfp.readlen phred_values (cstr "PV:B:")

/-- Function `fill_fa_buffer` (dmp.h:197-200). -/
def fill_fa_buffer (kfp : KingFisher_t) (agrees : List Int) : List Char :=
  fill_csv_buffer kfp.readlen agrees (cstr "FA:B:")

/-- A string of `n` bytes and its terminating NUL fit a buffer of `cap` bytes. -/
def fits (n cap : Nat) : Bool := decide (n + 1 ≤ cap)

/-- The stores of `fill_csv_buffer` stay inside `tmpbuf[10]` and inside a `buffer` of
`cap` bytes. -/
def csv_fits (readlen : Nat) (arr : List Int) (pfx : List Char) (cap : Nat) : Bool :=
  (List.range readlen).all (fun i => fits (fmt_int (arr.getD i 0)).length.succ 10) &&
  fits (fill_csv_buffer readlen arr pfx).length cap

/-- The byte `*(bs_ptr - 5)` read at dmp.h:224, for `bs_ptr` pointing `bs_ptr` bytes into
`comment`. -/
def dmp_pass (comment : List Char) (bs_ptr : Nat) : Char := comment.getD (bs_ptr - 5) NUL

/-- The string printed from `name_buffer` (dmp.h:236-238). -/
def dmp_name_buffer (comment : List Char) (bs_ptr blen : Nat) : List Char :=
  '@' :: (c_string (comment.drop bs_ptr)).take blen

/-- The string printed from `FPBuffer` (dmp.h:235). -/
def dmp_FPBuffer (pass : Char) : List Char := c_string (cstr "FP:i:" ++ [pass])

/-- The string built in `arr_tag_buffer` (dmp.h:241). -/
def dmp_arr_tag_buffer (FABuffer PVBuffer FPBuffer cons_seq max_phreds : List Char) : List Char :=
  FABuffer ++ cstr "\t" ++ PVBuffer ++ cstr "\t" ++ FPBuffer ++ cstr "\n" ++ cons_seq ++
    cstr "\n+\n" ++ c_string max_phreds ++ cstr "\n"

/-- The accesses of `dmp_process_write` up to dmp.h:224 stay inside their buffers:
`tmpbuf[10]`, `FABuffer[1000]`, `PVBuffer[1000]`, and the load `*(bs_ptr - 5)` is not in
front of the comment. -/
def dmp_csv_in_bounds (log10 : ℚ → ℚ) (igamc : ℚ → ℚ → ℚ) (kfp : KingFisher_t)
    (bs_ptr : Nat) : Bool :=
  csv_fits kfp.readlen (dmp_agrees kfp) (cstr "FA:B:") 1000 &&
  csv_fits kfp.readlen (dmp_cons_quals log10 igamc kfp) (cstr "PV:B:") 1000 &&
  decide (5 ≤ bs_ptr)

/-- The stores of dmp.h:236-241 stay inside `name_buffer[120]` and `arr_tag_buffer[2000]`. -/
def dmp_record_in_bounds (log10 : ℚ → ℚ) (igamc : ℚ → ℚ → ℚ) (kfp : KingFisher_t)
    (comment : List Char) (bs_ptr blen : Nat) : Bool :=
  fits (1 + blen) 120 &&
  fits (dmp_arr_tag_buffer (fill_fa_buffer kfp (dmp_agrees kfp))
      (fill_pv_buffer kfp (dmp_cons_quals log10 igamc kfp))
      (dmp_FPBuffer (dmp_pass comment bs_ptr)) (dmp_cons_seq kfp) kfp.max_phreds).length 2000

/-- Every load and store of `dmp_process_write` stays inside its buffer. -/
def dmp_in_bounds (log10 : ℚ → ℚ) (igamc : ℚ → ℚ → ℚ) (kfp : KingFisher_t)
    (comment : List Char) (bs_ptr blen : Nat) : Bool :=
  dmp_csv_in_bounds log10 igamc kfp bs_ptr &&
  dmp_record_in_bounds log10 igamc kfp comment bs_ptr blen

/-- A format string that `fprintf` is given without further arguments is printed as it is
exactly when every `%` in it is followed by a second `%`; any other conversion would load
an argument that is not there. -/
def format_without_arguments : List Char → Bool
  | [] => true
  | c :: s =>
    if c = '%' then
      match s with
      | d :: rest => if d = '%' then format_without_arguments rest else false
      | [] => false
    else format_without_arguments s

/-- The bytes that `memcpy(buf, (bs_ptr - 5), 5 + blen + 1)` copies into `buf`
(dmp.h:228). -/
def dmp_guard_buf (comment : List Char) (bs_ptr blen : Nat) : List Char :=
  read_bytes comment (bs_ptr - 5) (5 + blen + 1)

/-- The diagnostic of dmp.h:227-230 stays defined: the `memcpy` of `5 + blen + 1` bytes and
the store `buf[5 + blen + 1] = 0` stay inside `buf[20]`, and the string in `buf`, which
`fprintf` takes as its format, has no conversion. -/
def dmp_guard_in_bounds (comment : List Char) (bs_ptr blen : Nat) : Bool :=
  fits (5 + blen + 1) 20 &&
  format_without_arguments (c_string (dmp_guard_buf comment bs_ptr blen))

/-- What a call of `dmp_process_write` does. -/
inductive dmp_result where
  | written (text : List Char)
  | exited
  | undefined
  deriving DecidableEq

/-- Function `dmp_process_write` (dmp.h:202-245).  `NDEBUG` is the preprocessor symbol
tested at dmp.h:225; `written text` is the text of the final `fprintf`, `exited` is the
`exit(1)` of dmp.h:231, reached when the diagnostic in front of it is defined, `undefined`
an access outside a buffer. -/
def dmp_process_write (NDEBUG : Bool) (log10 : ℚ → ℚ) (igamc : ℚ → ℚ → ℚ) (kfp : KingFisher_t)
    (comment : List Char) (bs_ptr blen : Nat) : dmp_result :=
  let cons_seq := dmp_cons_seq kfp
  let cons_quals := dmp_cons_quals log10 igamc kfp
  let agrees := dmp_agrees kfp
  let FABuffer := fill_fa_buffer kfp agrees
  let PVBuffer := fill_pv_buffer kfp cons_quals
  let pass := dmp_pass comment bs_ptr
  if !dmp_csv_in_bounds log10 igamc kfp bs_ptr then dmp_result.undefined
  else if !NDEBUG && (pass != '0' && pass != '1') then
    if dmp_guard_in_bounds comment bs_ptr blen then dmp_result.exited else dmp_result.undefined
  else if !dmp_record_in_bounds log10 igamc kfp comment bs_ptr blen then dmp_result.undefined
  else
    let FPBuffer := dmp_FPBuffer pass
    let name_buffer := dmp_name_buffer comment bs_ptr blen
    let arr_tag_buffer := dmp_arr_tag_buffer FABuffer PVBuffer FPBuffer cons_seq kfp.max_phreds
    dmp_result.written (name_buffer ++ cstr " " ++ arr_tag_buffer)

/-! ## Concrete aggregates used to evaluate the statements -/

/-- A family that is accumulated, reset and accumulated again; the read after the reset
has an ambiguous base. -/
def reused_aggregate : KingFisher_t :=
  pushback_kseq (clear_kf (pushback_kseq (init_kf 2) ⟨cstr "AC", cstr "II"⟩)) ⟨cstr "NG", cstr "#I"⟩

/-- A family of two reads whose G and T weight sums at position 0 are equal. -/
def tie_aggregate : KingFisher_t :=
  accumulate 1 [⟨cstr "G", cstr "I"⟩, ⟨cstr "T", cstr "I"⟩]

/-- A family of two reads of which the second has an ambiguous base at position 0. -/
def ambiguous_family : List kseq_t := [⟨cstr "A", cstr "I"⟩, ⟨cstr "N", cstr "I"⟩]

/-- A family of two reads with different quality strings. -/
def quality_family : List kseq_t := [⟨cstr "AC", cstr "I5"⟩, ⟨cstr "AC", cstr "5I"⟩]

/-- The read of the three-identical-reads scenario: "ACGT" with quality "IIII" (Phred 40). -/
def acgt_read : kseq_t := ⟨cstr "ACGT", cstr "IIII"⟩

/-- A family of three identical reads. -/
def acgt_family : List kseq_t := [acgt_read, acgt_read, acgt_read]

/-- A family of two reads that disagree at position 0: 'A' with quality byte 63 (Phred 30)
and 'C' with quality byte 43 (Phred 10). -/
def disagreeing_family : List kseq_t := [⟨cstr "A", cstr "?"⟩, ⟨cstr "C", cstr "+"⟩]

/-! ## Barcode parsing (dmp.h, bmf_hashdmp.h) -/

/-- The loop of `barcode_mem_view` (dmp.h:131-140) from index `i` on, `s` being the bytes
`comment.s[i ..]` that are still to be visited and `hits` the counter. -/
def barcode_mem_view_loop : List Char → Nat → Nat → Option Nat
  | [], _, _ => none
  | c :: s, i, hits =>
    if c = '|' then
      if hits = 0 then barcode_mem_view_loop s (i + 1) (hits + 1)
      else some (i + 4)
    else barcode_mem_view_loop s (i + 1) hits

/-- Function `barcode_mem_view` (dmp.h:129-142), which reads only `seq->comment`: the
offset into `comment.s` of the returned pointer, `none` for `NULL`. -/
def barcode_mem_view (comment : List Char) : Option Nat := barcode_mem_view_loop comment 0 0

/-- Function `cp_view2buf` (bmf_hashdmp.h:26-35): the string stored in `buf`, for `view`
pointing at the given bytes (followed, as every kstring is, by a NUL). -/
def cp_view2buf : List Char → List Char
  | [] => []
  | c :: view => if c = NUL ∨ c = '|' then [] else c :: cp_view2buf view

/-- Modelled from the spec: the `SALTED_MSEQ_2_FQ` macro with which the sharder writes its
records is not in the sources.  The comment it embeds a barcode `b` and a flag `f` in has a
first `|` that introduces the flag field, the flag character immediately followed by the
4-byte marker `|BS=` and then `b`, as in `...|FP=f|BS=b`; `pre` and `mid` are the bytes in
front of the first `|` and between it and the flag. -/
def sharder_comment (pre mid : List Char) (f : Char) (b : List Char) : List Char :=
  pre ++ '|' :: (mid ++ f :: (cstr "|BS=" ++ b))

/-! ## Sharder: barcode assembly (bmf_sdmp.c) -/

/-- The libc call `memcpy(dst + pos, src + start, n)`: the buffer `dst` afterwards.  Stores
past the end of `dst` are dropped. -/
def memcpy (dst : List Char) (pos : Nat) (src : List Char) (start n : Nat) : List Char :=
  (dst.take pos ++ read_bytes src start n ++ dst.drop (pos + n)).take dst.length

/-- The three `memcpy` calls of `splitmark_core_rescale` that fill `rseq1->barcode`
(bmf_sdmp.c:79-81 and 95-97): the barcode buffer afterwards. -/
def splitmark_barcode_copy (barcode seq1 seq_index seq2 : List Char) (offset salt : Nat) :
    List Char :=
  let b1 := memcpy barcode 0 seq1 offset salt
  let b2 := memcpy b1 salt seq_index 0 seq_index.length
  memcpy b2 (salt + seq_index.length) seq2 offset salt

/-- Barcode assembly for the first read triplet (bmf_sdmp.c:79-82): the three copies and
the store of the terminating NUL. -/
def splitmark_barcode_first (barcode seq1 seq_index seq2 : List Char) (offset salt : Nat) :
    List Char :=
  updAt (fun _ => NUL) (splitmark_barcode_copy barcode seq1 seq_index seq2 offset salt)
    (salt * 2 + seq_index.length)

/-- Barcode assembly for every later read triplet, in the loop (bmf_sdmp.c:95-97): the
three copies only. -/
def splitmark_barcode_loop (barcode seq1 seq_index seq2 : List Char) (offset salt : Nat) :
    List Char :=
  splitmark_barcode_copy barcode seq1 seq_index seq2 offset salt

/-! ## Sharder: homopolymer flag and shard index -/

/-- The maximal runs of one repeated character of a string, as (character, length) pairs
from left to right. -/
def maximal_runs : List Char → List (Char × Nat)
  | [] => []
  | c :: s =>
    match maximal_runs s with
    | (d, n) :: rest => if c = d then (d, n + 1) :: rest else (c, 1) :: (d, n) :: rest
    | [] => [(c, 1)]

/-- Modelled from the spec: `test_hp` is called by `splitmark_core_rescale`
(bmf_sdmp.c:85, 100) but its definition is not in the sources.  The spec: "Fail if any
maximal run of one repeated character has length ≥ `threshold`; else Pass", Fail being the
flag character '0' and Pass '1'. -/
def test_hp (barcode : List Char) (threshold : Nat) : Char :=
  if (maximal_runs barcode).any (fun r => decide (threshold ≤ r.2)) then '0' else '1'

/-- Modelled from the spec: the digit of a character in the shard index, "A=0,C=1,G=2,T=3;
any other character maps to digit 0". -/
def nuc_digit (c : Char) : Nat :=
  match c with
  | 'A' => 0
  | 'C' => 1
  | 'G' => 2
  | 'T' => 3
  | _ => 0

/-- Modelled from the spec: `get_binner` / `get_binner_type` is used by
`splitmark_core_rescale` (bmf_sdmp.c:86, 101) but its definition is not in the sources.
The spec: it "interprets the first `k` characters of the barcode as base-4 digits", the
first character being the most significant digit. -/
def get_binner (barcode : List Char) (k : Nat) : Nat :=
  (barcode.take k).foldl (fun bin c => 4 * bin + nuc_digit c) 0

/-! ## Reference definitions the code is compared with -/

/-- The naive argmax scan over the four sums in the order A, C, G, T: keep the first
maximum, move on only to a strictly larger sum.  This is the reference `ARRG_MAX` is
compared with; it is not taken from the source. -/
def first_max_scan (sA sC sG sT : ℚ) : Nat :=
  let best1 : Nat × ℚ := if sC > sA then (1, sC) else (0, sA)
  let best2 : Nat × ℚ := if sG > best1.2 then (2, sG) else best1
  let best3 : Nat × ℚ := if sT > best2.2 then (3, sT) else best2
  best3.1

/-! ## The consensus call, statement by statement, on the memory it can reach -/

/-- The fields of `marksplit_settings_t` that `splitmark_core_rescale` uses on its records
(bmf_sdmp.c:79-86). -/
structure marksplit_settings_t where
  hp_threshold : Nat
  n_nucs : Nat
  offset : Nat
  salt : Nat

/-- The library call `kseq_read` (klib's kseq.h, not in the sources) on an input stream
given as the list of the records that are still to come: the record read and the rest of the stream; `none` stands for the
negative return value at the end of the stream. -/
def kseq_read (stream : List kseq_t) : Option (kseq_t × List kseq_t) :=
  match stream with
  | [] => none
  | r :: rest => some (r, rest)

/-- One call of `SALTED_MSEQ_2_FQ` (bmf_sdmp.c:87-88, 102-103), by its arguments: `mate` is 1
for `tmp_out_handles_r1` and 2 for `tmp_out_handles_r2`, `bin` the index into that array,
`read` the input record that `update_mseq` copied into the written `mseq_t`, `barcode` the
string at `rseq1->barcode` and `pass_fail` the flag. -/
structure shard_write where
  mate : Nat
  bin : Nat
  read : kseq_t
  barcode : List Char
  pass_fail : Char
  deriving DecidableEq

/-- The statements that follow the barcode assembly for one read triplet (bmf_sdmp.c:83-88
and 98-103): the flag and the bin are computed from the string at `rseq1->barcode`, then
the two records are written. -/
def splitmark_route (settings : marksplit_settings_t) (barcode : List Char)
    (seq1 seq2 : kseq_t) : List shard_write :=
  let pass_fail := test_hp (c_string barcode) settings.hp_threshold
  let bin := get_binner (c_string barcode) settings.n_nucs
  [⟨1, bin, seq1, c_string barcode, pass_fail⟩, ⟨2, bin, seq2, c_string barcode, pass_fail⟩]

/-- The `while` loop of `splitmark_core_rescale` (bmf_sdmp.c:90-104): the writes it makes,
`barcode` being the buffer `rseq1->barcode` when the loop is entered.  The condition reads
the three streams from left to right and the loop is left, without any other statement,
as soon as one `kseq_read` finds its stream at its end. -/
def splitmark_loop (settings : marksplit_settings_t) :
    List Char → List kseq_t → List kseq_t → List kseq_t → List shard_write
  | barcode, seq1 :: in1, seq2 :: in2, seq_index :: in_index =>
    let b := splitmark_barcode_loop barcode seq1.seq seq_index.seq seq2.seq
      settings.offset settings.salt
    splitmark_route settings b seq1 seq2 ++ splitmark_loop settings b in1 in2 in_index
  | _, [], _, _ => []
  | _, _ :: _, [], _ => []
  | _, _ :: _, _ :: _, [] => []

/-- How a run of `splitmark_core_rescale` ends. -/
inductive splitmark_outcome where
  | exit_failure
  | completed (writes : List shard_write)
  deriving DecidableEq

/-- Function `splitmark_core_rescale` (bmf_sdmp.c:37-121) from the first `kseq_read` calls
on (bmf_sdmp.c:61), for three distinct input paths that are files: `in1`, `in2` and
`in_index` are the records of the mate-1, mate-2 and index inputs, `barcode` the buffer
`rseq1->barcode` as `mseq_init` leaves it.  `exit_failure` is the `exit(EXIT_FAILURE)` of
bmf_sdmp.c:73; `completed` lists the writes made up to the `return`. -/
def splitmark_core_rescale (settings : marksplit_settings_t) (barcode : List Char)
    (in1 in2 in_index : List kseq_t) : splitmark_outcome :=
  match kseq_read in1, kseq_read in2, kseq_read in_index with
  | some (seq1, rest1), some (seq2, rest2), some (seq_index, rest_index) =>
    let b := splitmark_barcode_first barcode seq1.seq seq_index.seq seq2.seq
      settings.offset settings.salt
    splitmark_outcome.completed
      (splitmark_route settings b seq1 seq2 ++ splitmark_loop settings b rest1 rest2 rest_index)
  | _, _, _ => splitmark_outcome.exit_failure

/-! ## File-descriptor limit (bmf_sdmp.c, `fqms_main`) -/

/-- Modelled from the spec: `ipow` is called at bmf_sdmp.c:186 but its definition is not in
the sources.  The spec has "`4^k`" shards for each mate, and `n_handles = ipow(4, n_nucs)`
is their number: the integer power. -/
def ipow (base exp : Nat) : Nat := base ^ exp

/-- The macro `kroundup32` is used at bmf_sdmp.c:188 and 190; it comes from klib, whose
headers are not in the sources, and is taken here by klib's text,
`(--(x), (x)|=(x)>>1, (x)|=(x)>>2, (x)|=(x)>>4, (x)|=(x)>>8, (x)|=(x)>>16, ++(x))`,
on a 32-bit value: the least power of two that is not below `x`. -/
def kroundup32 (x : Nat) : Nat :=
  let x0 := (x + 2 ^ 32 - 1) % 2 ^ 32
  let x1 := x0 ||| (x0 >>> 1)
  let x2 := x1 ||| (x1 >>> 2)
  let x3 := x2 ||| (x2 >>> 4)
  let x4 := x3 ||| (x3 >>> 8)
  let x5 := x4 ||| (x4 >>> 16)
  (x5 + 1) % 2 ^ 32

/-- The limit check of `fqms_main` (bmf_sdmp.c:186-191), `fileno_limit` being the value that
`get_fileno_limit()` returns: the argument of the call `increase_nofile_limit(...)`, which
the message of bmf_sdmp.c:189 reports as the new limit; `none` when the branch is not
taken and the limit is left as it is. -/
def fqms_limit_request (n_nucs fileno_limit : Nat) : Option Nat :=
  let n_handles := ipow 4 n_nucs
  if n_handles * 3 > fileno_limit then some (kroundup32 n_handles) else none

/-! ## Family-size statistics (bmf_famstats.cpp) -/

theorem updAt_length {α : Type} (f : α → α) (l : List α) (n : Nat) :
    (updAt f l n).length = l.length := by
  induction l generalizing n with
  | nil => simp [updAt]
  | cons x xs ih => cases n <;> simp [updAt, ih]

theorem getD_updAt {α : Type} (f : α → α) (l : List α) (n m : Nat) (d : α) :
    (updAt f l n).getD m d = if m = n ∧ n < l.length then f (l.getD n d) else l.getD m d := by
  induction l generalizing n m with
  | nil => simp [updAt]
  | cons x xs ih =>
    cases n with
    | zero => cases m <;> simp [updAt]
    | succ n =>
      cases m with
      | zero => simp [updAt]
      | succ m => simpa [updAt] using ih n m

theorem mem_updAt {α : Type} (f : α → α) (l : List α) (n : Nat) (x : α) (h : x ∈ updAt f l n) :
    x ∈ l ∨ ∃ y ∈ l, x = f y := by
  induction l generalizing n with
  | nil => simp [updAt] at h
  | cons a as ih =>
    cases n with
    | zero =>
      simp only [updAt, List.mem_cons] at h
      rcases h with h | h
      · exact Or.inr ⟨a, by simp, h⟩
      · exact Or.inl (by simp [h])
    | succ n =>
      simp only [updAt, List.mem_cons] at h
      rcases h with h | h
      · exact Or.inl (by simp [h])
      · rcases ih n h with h1 | ⟨y, hy, hxy⟩
        · exact Or.inl (by simp [h1])
        · exact Or.inr ⟨y, by simp [hy], hxy⟩

theorem getD_mem {α : Type} (l : List α) (i : Nat) (d : α) (h : i < l.length) : l.getD i d ∈ l := by
  induction l generalizing i with
  | nil => simp at h
  | cons a as ih =>
    cases i with
    | zero => simp
    | succ i =>
      simp only [List.getD_cons_succ, List.mem_cons]
      exact Or.inr (ih i (by simpa using h))

theorem forall_mem_updAt {α : Type} (P : α → Prop) (f : α → α) (l : List α) (n : Nat)
    (hl : ∀ x ∈ l, P x) (hf : ∀ x, P x → P (f x)) : ∀ x ∈ updAt f l n, P x := by
  intro x hx
  rcases mem_updAt f l n x hx with h | ⟨y, hy, rfl⟩
  · exact hl x h
  · exact hf y (hl y hy)


theorem NUC_TO_POS_fst_le (c : Char) : (NUC_TO_POS c).1 ≤ 3 := by
  unfold NUC_TO_POS; split <;> simp

theorem NUC_TO_POS_snd_le (c : Char) : (NUC_TO_POS c).2 ≤ 4 := by
  unfold NUC_TO_POS; split <;> simp

theorem pushback_step_readlen (seq : kseq_t) (k : KingFisher_t) (p : Nat) :
    (pushback_step seq k p).readlen = k.readlen := by
  unfold pushback_step; simp only []; split <;> rfl

theorem pushback_step_length (seq : kseq_t) (k : KingFisher_t) (p : Nat) :
    (pushback_step seq k p).length = k.length := by
  unfold pushback_step; simp only []; split <;> rfl

theorem pushback_step_nuc_counts (seq : kseq_t) (k : KingFisher_t) (p : Nat) :
    (pushback_step seq k p).nuc_counts
      = updAt (fun row => updAt (fun c => c + 1) row (nuc_count_index seq p)) k.nuc_counts p := by
  unfold pushback_step; simp only []; split <;> rfl

theorem pushback_step_phred_sums (seq : kseq_t) (k : KingFisher_t) (p : Nat) :
    (pushback_step seq k p).phred_sums
      = updAt (fun row => updAt (fun s => s + ((char_to_int (seq.qual_at p) - 33 : Int) : ℚ)) row
          (phred_sum_index seq p)) k.phred_sums p := by
  unfold pushback_step; simp only []; split <;> rfl

theorem pushback_step_max_phreds (seq : kseq_t) (k : KingFisher_t) (p : Nat) :
    (pushback_step seq k p).max_phreds
      = if char_to_int (seq.qual_at p) > char_to_int (k.maxq p) then
          updAt (fun _ => seq.qual_at p) k.max_phreds p else k.max_phreds := by
  unfold pushback_step; simp only [KingFisher_t.maxq]; split <;> rfl

theorem pushback_step_shaped (seq : kseq_t) (k : KingFisher_t) (p : Nat) (hs : k.shaped)
    (hp : p < k.readlen) : (pushback_step seq k p).shaped := by
  obtain ⟨h1, h2, h3, h4, h5, h6⟩ := hs
  unfold KingFisher_t.shaped
  rw [pushback_step_nuc_counts, pushback_step_phred_sums, pushback_step_max_phreds,
    pushback_step_readlen]
  refine ⟨by rw [updAt_length, h1], ?_, by rw [updAt_length, h3], ?_, ?_, ?_⟩
  · exact forall_mem_updAt (fun (row : List Int) => row.length = 5) _ _ _ h2
      (fun row hrow => by simp only [updAt_length]; exact hrow)
  · exact forall_mem_updAt (fun (row : List ℚ) => row.length = 4) _ _ _ h4
      (fun row hrow => by simp only [updAt_length]; exact hrow)
  · split
    · rw [updAt_length, h5]
    · exact h5
  · split
    · rw [getD_updAt, if_neg (fun h => by omega)]
      exact h6
    · exact h6

theorem shaped_count_row (k : KingFisher_t) (hs : k.shaped) (i : Nat) (hi : i < k.readlen) :
    (k.nuc_counts.getD i []).length = 5 :=
  hs.2.1 _ (getD_mem _ _ _ (by rw [hs.1]; exact hi))

theorem shaped_sum_row (k : KingFisher_t) (hs : k.shaped) (i : Nat) (hi : i < k.readlen) :
    (k.phred_sums.getD i []).length = 4 :=
  hs.2.2.2.1 _ (getD_mem _ _ _ (by rw [hs.2.2.1]; exact hi))

theorem pushback_step_count (seq : kseq_t) (k : KingFisher_t) (p : Nat) (hs : k.shaped)
    (hp : p < k.readlen) (i j : Nat) :
    (pushback_step seq k p).count i j
      = k.count i j + if i = p ∧ j = nuc_count_index seq p then 1 else 0 := by
  unfold KingFisher_t.count
  rw [pushback_step_nuc_counts, getD_updAt]
  by_cases hip : i = p
  · subst hip
    have hrow := shaped_count_row k hs i hp
    have hidx : nuc_count_index seq i < 5 := by
      have := NUC_TO_POS_fst_le (seq.seq_at i); unfold nuc_count_index; omega
    rw [if_pos ⟨rfl, by rw [hs.1]; exact hp⟩, getD_updAt, hrow]
    by_cases hj : j = nuc_count_index seq i
    · subst hj; simp [hidx]
    · simp [hj]
  · simp [hip]

theorem pushback_step_psum (seq : kseq_t) (k : KingFisher_t) (p : Nat) (hs : k.shaped)
    (hp : p < k.readlen) (i j : Nat) :
    (pushback_step seq k p).psum i j
      = k.psum i j + if i = p ∧ j = phred_sum_index seq p ∧ j < 4 then
          ((char_to_int (seq.qual_at p) - 33 : Int) : ℚ) else 0 := by
  unfold KingFisher_t.psum
  rw [pushback_step_phred_sums, getD_updAt]
  by_cases hip : i = p
  · subst hip
    have hrow := shaped_sum_row k hs i hp
    rw [if_pos ⟨rfl, by rw [hs.2.2.1]; exact hp⟩, getD_updAt, hrow]
    by_cases hj : j = phred_sum_index seq i
    · subst hj
      by_cases h4 : phred_sum_index seq i < 4
      · simp [h4]
      · simp [h4]
    · simp [hj]
  · simp [hip]

theorem pushback_step_maxq (seq : kseq_t) (k : KingFisher_t) (p : Nat) (hs : k.shaped)
    (hp : p < k.readlen) (i : Nat) :
    (pushback_step seq k p).maxq i
      = if i = p ∧ char_to_int (seq.qual_at p) > char_to_int (k.maxq p) then seq.qual_at p
        else k.maxq i := by
  unfold KingFisher_t.maxq
  rw [pushback_step_max_phreds]
  unfold KingFisher_t.maxq
  by_cases hq : char_to_int (seq.qual_at p) > char_to_int (k.max_phreds.getD p NUL)
  · have hlen : p < k.max_phreds.length := by rw [hs.2.2.2.2.1]; omega
    rw [if_pos hq, getD_updAt]
    by_cases hip : i = p
    · rw [if_pos ⟨hip, hlen⟩, if_pos ⟨hip, hq⟩]
    · rw [if_neg (fun h => hip h.1), if_neg (fun h => hip h.1)]
  · rw [if_neg hq, if_neg (fun h => hq h.2)]


theorem pushback_fold_frame (seq : kseq_t) (k : KingFisher_t) (l : List Nat) :
    (l.foldl (pushback_step seq) k).readlen = k.readlen ∧
    (l.foldl (pushback_step seq) k).length = k.length := by
  induction l generalizing k with
  | nil => exact ⟨rfl, rfl⟩
  | cons a as ih =>
    simp only [List.foldl_cons]
    rw [(ih _).1, (ih _).2, pushback_step_readlen, pushback_step_length]
    exact ⟨rfl, rfl⟩

theorem pushback_fold (seq : kseq_t) (k : KingFisher_t) (hs : k.shaped) (n : Nat)
    (hn : n ≤ k.readlen) :
    ((List.range n).foldl (pushback_step seq) k).shaped ∧
    (∀ i j, ((List.range n).foldl (pushback_step seq) k).count i j
      = k.count i j + if i < n ∧ j = nuc_count_index seq i then 1 else 0) ∧
    (∀ i j, ((List.range n).foldl (pushback_step seq) k).psum i j
      = k.psum i j + if i < n ∧ j = phred_sum_index seq i ∧ j < 4 then
          ((char_to_int (seq.qual_at i) - 33 : Int) : ℚ) else 0) ∧
    (∀ i, ((List.range n).foldl (pushback_step seq) k).maxq i
      = if i < n ∧ char_to_int (seq.qual_at i) > char_to_int (k.maxq i) then seq.qual_at i
        else k.maxq i) := by
  induction n with
  | zero => simp [hs]
  | succ n ih =>
    obtain ⟨ihs, ihc, ihp, ihm⟩ := ih (by omega)
    have hrl := (pushback_fold_frame seq k (List.range n)).1
    have hn' : n < ((List.range n).foldl (pushback_step seq) k).readlen := by rw [hrl]; omega
    rw [List.range_succ, List.foldl_append]
    simp only [List.foldl_cons, List.foldl_nil]
    refine ⟨pushback_step_shaped _ _ _ ihs hn', ?_, ?_, ?_⟩
    · intro i j
      rw [pushback_step_count _ _ _ ihs hn', ihc]
      by_cases hin : i = n
      · subst hin; simp
      · have : i < n + 1 ↔ i < n := by omega
        simp [hin, this]
    · intro i j
      rw [pushback_step_psum _ _ _ ihs hn', ihp]
      by_cases hin : i = n
      · subst hin; simp
      · have : i < n + 1 ↔ i < n := by omega
        simp [hin, this]
    · intro i
      rw [pushback_step_maxq _ _ _ ihs hn', ihm, ihm]
      by_cases hin : i = n
      · subst hin; simp
      · have : i < n + 1 ↔ i < n := by omega
        simp [hin, this]

theorem pushback_kseq_readlen (k : KingFisher_t) (seq : kseq_t) :
    (pushback_kseq k seq).readlen = k.readlen :=
  (pushback_fold_frame seq k (List.range k.readlen)).1

theorem pushback_kseq_length (k : KingFisher_t) (seq : kseq_t) :
    (pushback_kseq k seq).length = k.length + 1 := by
  show ((List.range k.readlen).foldl (pushback_step seq) k).length + 1 = k.length + 1
  rw [(pushback_fold_frame seq k (List.range k.readlen)).2]

theorem pushback_kseq_shaped (k : KingFisher_t) (seq : kseq_t) (hs : k.shaped) :
    (pushback_kseq k seq).shaped := by
  have h := (pushback_fold seq k hs k.readlen (Nat.le_refl _)).1
  have hr := (pushback_fold_frame seq k (List.range k.readlen)).1
  unfold KingFisher_t.shaped at h ⊢
  exact h

theorem pushback_kseq_count (k : KingFisher_t) (seq : kseq_t) (hs : k.shaped) (i j : Nat) :
    (pushback_kseq k seq).count i j
      = k.count i j + if i < k.readlen ∧ j = nuc_count_index seq i then 1 else 0 :=
  (pushback_fold seq k hs k.readlen (Nat.le_refl _)).2.1 i j

theorem pushback_kseq_psum (k : KingFisher_t) (seq : kseq_t) (hs : k.shaped) (i j : Nat) :
    (pushback_kseq k seq).psum i j
      = k.psum i j + if i < k.readlen ∧ j = phred_sum_index seq i ∧ j < 4 then
          ((char_to_int (seq.qual_at i) - 33 : Int) : ℚ) else 0 :=
  (pushback_fold seq k hs k.readlen (Nat.le_refl _)).2.2.1 i j

theorem pushback_kseq_maxq (k : KingFisher_t) (seq : kseq_t) (hs : k.shaped) (i : Nat) :
    (pushback_kseq k seq).maxq i
      = if i < k.readlen ∧ char_to_int (seq.qual_at i) > char_to_int (k.maxq i) then
          seq.qual_at i else k.maxq i :=
  (pushback_fold seq k hs k.readlen (Nat.le_refl _)).2.2.2 i


theorem getD_replicate {α : Type} (n i : Nat) (a d : α) :
    (List.replicate n a).getD i d = if i < n then a else d := by
  induction n generalizing i with
  | zero => simp
  | succ n ih =>
    cases i with
    | zero => simp [List.replicate_succ]
    | succ i => simpa [List.replicate_succ] using ih i

theorem init_kf_shaped (readlen : Nat) : (init_kf readlen).shaped := by
  refine ⟨by simp [init_kf], ?_, by simp [init_kf], ?_, by simp [init_kf], ?_⟩
  · intro row hrow
    rw [(List.mem_replicate.mp hrow).2, List.length_replicate]
  · intro row hrow
    rw [(List.mem_replicate.mp hrow).2, List.length_replicate]
  · show (List.replicate (readlen + 1) NUL).getD readlen NUL = NUL
    rw [getD_replicate]; split <;> rfl

theorem init_kf_count (readlen i j : Nat) : (init_kf readlen).count i j = 0 := by
  unfold KingFisher_t.count init_kf
  rw [getD_replicate]
  split
  · rw [getD_replicate]; split <;> rfl
  · rfl

theorem init_kf_psum (readlen i j : Nat) : (init_kf readlen).psum i j = 0 := by
  unfold KingFisher_t.psum init_kf
  rw [getD_replicate]
  split
  · rw [getD_replicate]; split <;> rfl
  · rfl

theorem init_kf_maxq (readlen i : Nat) : (init_kf readlen).maxq i = NUL := by
  unfold KingFisher_t.maxq init_kf
  simp only [getD_replicate]
  split <;> rfl

theorem eq_replicate_of_getD {α : Type} (l : List α) (n : Nat) (a d : α) (hl : l.length = n)
    (h : ∀ i, i < n → l.getD i d = a) : l = List.replicate n a := by
  induction l generalizing n with
  | nil => subst hl; rfl
  | cons x xs ih =>
    cases n with
    | zero => simp at hl
    | succ n =>
      have h0 := h 0 (by omega)
      simp only [List.getD_cons_zero] at h0
      rw [List.replicate_succ, h0, ih n (by simpa using hl)
        (fun i hi => by simpa using h (i + 1) (by omega))]

theorem memset_row {α : Type} (row : List α) (n : Nat) (z : α) (h : row.length = n) :
    List.replicate (min n row.length) z ++ row.drop n = List.replicate n z := by
  rw [h, Nat.min_self, List.drop_eq_nil_of_le (by omega), List.append_nil]

theorem clear_fold (k : KingFisher_t) (l : List Nat) :
    (l.foldl clear_kf_step k).readlen = k.readlen ∧
    (l.foldl clear_kf_step k).max_phreds = k.max_phreds := by
  induction l generalizing k with
  | nil => exact ⟨rfl, rfl⟩
  | cons a as ih =>
    simp only [List.foldl_cons]
    rw [(ih _).1, (ih _).2]
    exact ⟨rfl, rfl⟩

theorem clear_fold_rows (k : KingFisher_t) (hs : k.shaped) (n : Nat) (hn : n ≤ k.readlen) :
    ((List.range n).foldl clear_kf_step k).nuc_counts.length = k.readlen ∧
    ((List.range n).foldl clear_kf_step k).phred_sums.length = k.readlen ∧
    (∀ i, i < n → ((List.range n).foldl clear_kf_step k).nuc_counts.getD i [] = List.replicate 5 0) ∧
    (∀ i, i < n → ((List.range n).foldl clear_kf_step k).phred_sums.getD i [] = List.replicate 4 0) ∧
    (∀ i, n ≤ i → ((List.range n).foldl clear_kf_step k).nuc_counts.getD i [] = k.nuc_counts.getD i []) ∧
    (∀ i, n ≤ i → ((List.range n).foldl clear_kf_step k).phred_sums.getD i [] = k.phred_sums.getD i []) := by
  induction n with
  | zero =>
    refine ⟨hs.1, hs.2.2.1, ?_, ?_, ?_, ?_⟩ <;> intro i hi <;> first | omega | rfl
  | succ n ih =>
    obtain ⟨l1, l2, c1, c2, c3, c4⟩ := ih (by omega)
    rw [List.range_succ, List.foldl_append]
    simp only [List.foldl_cons, List.foldl_nil, clear_kf_step, updAt_length]
    have hrowc := shaped_count_row k hs n (by omega)
    have hrows := shaped_sum_row k hs n (by omega)
    refine ⟨l1, l2, ?_, ?_, ?_, ?_⟩
    · intro i hi
      rw [getD_updAt]
      by_cases hin : i = n
      · subst hin
        rw [if_pos ⟨rfl, by rw [l1]; omega⟩, c3 i (Nat.le_refl _)]
        exact memset_row _ 5 0 hrowc
      · rw [if_neg (fun h => hin h.1)]
        exact c1 i (by omega)
    · intro i hi
      rw [getD_updAt]
      by_cases hin : i = n
      · subst hin
        rw [if_pos ⟨rfl, by rw [l2]; omega⟩, c4 i (Nat.le_refl _)]
        exact memset_row _ 4 0 hrows
      · rw [if_neg (fun h => hin h.1)]
        exact c2 i (by omega)
    · intro i hi
      rw [getD_updAt, if_neg (fun h => by omega)]
      exact c3 i (by omega)
    · intro i hi
      rw [getD_updAt, if_neg (fun h => by omega)]
      exact c4 i (by omega)

theorem clear_kf_eq_init (k : KingFisher_t) (hs : k.shaped) : clear_kf k = init_kf k.readlen := by
  obtain ⟨l1, l2, c1, c2, -, -⟩ := clear_fold_rows k hs k.readlen (Nat.le_refl _)
  obtain ⟨f1, f2⟩ := clear_fold k (List.range k.readlen)
  have hm : k.max_phreds.length = k.readlen + 1 := hs.2.2.2.2.1
  have hlast : k.max_phreds.getD k.readlen NUL = NUL := hs.2.2.2.2.2
  unfold clear_kf init_kf
  simp only [f1, f2]
  congr 1
  · exact eq_replicate_of_getD _ _ _ [] l1 c1
  · exact eq_replicate_of_getD _ _ _ [] l2 c2
  · refine eq_replicate_of_getD _ _ _ NUL (by simp [hm]) ?_
    intro i hi
    by_cases hlt : i < k.readlen
    · rw [List.getD_append _ _ _ _ (by simp [hm]; omega), getD_replicate]
      split <;> rfl
    · have hik : i = k.readlen := by omega
      subst hik
      rw [List.getD_append_right _ _ _ _ (by simp [hm])]
      simp only [List.length_replicate, hm]
      rw [Nat.min_eq_left (by omega), Nat.sub_self]
      have hd : (k.max_phreds.drop k.readlen).getD 0 NUL = k.max_phreds.getD k.readlen NUL := by
        simp [List.getD_eq_getElem?_getD, List.getElem?_drop]
      rw [hd, hlast]

theorem reachable_shaped (readlen : Nat) (k : KingFisher_t) (h : Reachable readlen k) :
    k.shaped ∧ k.readlen = readlen := by
  induction h with
  | init => exact ⟨init_kf_shaped readlen, rfl⟩
  | push k seq _ ih => exact ⟨pushback_kseq_shaped k seq ih.1, by rw [pushback_kseq_readlen, ih.2]⟩
  | clear k _ ih =>
    rw [clear_kf_eq_init k ih.1, ih.2]
    exact ⟨init_kf_shaped readlen, rfl⟩

theorem nuc_count_index_le (seq : kseq_t) (i : Nat) : nuc_count_index seq i ≤ 3 :=
  NUC_TO_POS_fst_le _

theorem foldl_pushback_frame (reads : List kseq_t) (k : KingFisher_t) :
    (reads.foldl pushback_kseq k).length = k.length + reads.length ∧
    (reads.foldl pushback_kseq k).readlen = k.readlen := by
  induction reads generalizing k with
  | nil => simp
  | cons r rs ih =>
    simp only [List.foldl_cons, List.length_cons]
    rw [(ih _).1, (ih _).2, pushback_kseq_length, pushback_kseq_readlen]
    refine ⟨?_, rfl⟩
    push_cast
    ring

theorem foldl_pushback_shaped (reads : List kseq_t) (k : KingFisher_t) (hs : k.shaped) :
    (reads.foldl pushback_kseq k).shaped := by
  induction reads generalizing k with
  | nil => exact hs
  | cons r rs ih => exact ih _ (pushback_kseq_shaped k r hs)

theorem accumulate_shaped (readlen : Nat) (reads : List kseq_t) : (accumulate readlen reads).shaped :=
  foldl_pushback_shaped reads _ (init_kf_shaped readlen)

theorem accumulate_readlen (readlen : Nat) (reads : List kseq_t) :
    (accumulate readlen reads).readlen = readlen :=
  (foldl_pushback_frame reads _).2

theorem accumulate_append (readlen : Nat) (reads : List kseq_t) (r : kseq_t) :
    accumulate readlen (reads ++ [r]) = pushback_kseq (accumulate readlen reads) r := by
  simp [accumulate, List.foldl_append]

/-- C1. Family-size invariant: in every aggregate obtained from `init_kf readlen` by
`pushback_kseq` and `clear_kf` calls, at every position `i < readlen` the five nucleotide
counts add up to the member count `length`. -/
theorem family_size_invariant (readlen : Nat) (kfp : KingFisher_t) (h : Reachable readlen kfp)
    (i : Nat) (hi : i < readlen) :
    kfp.count i 0 + kfp.count i 1 + kfp.count i 2 + kfp.count i 3 + kfp.count i 4
      = kfp.length := by
  induction h with
  | init =>
    simp only [init_kf_count]
    rfl
  | push k seq hk ih =>
    obtain ⟨hs, hr⟩ := reachable_shaped readlen k hk
    have hidx := nuc_count_index_le seq i
    have hlt : i < k.readlen := by rw [hr]; exact hi
    simp only [pushback_kseq_count k seq hs, pushback_kseq_length, hlt, true_and]
    rw [← ih]
    have h4 : (4 : Nat) ≠ nuc_count_index seq i := by omega
    rw [if_neg h4]
    rcases (by omega : nuc_count_index seq i = 0 ∨ nuc_count_index seq i = 1 ∨
      nuc_count_index seq i = 2 ∨ nuc_count_index seq i = 3) with h0 | h0 | h0 | h0 <;>
      rw [h0] <;> simp <;> ring
  | clear k hk _ =>
    obtain ⟨hs, hr⟩ := reachable_shaped readlen k hk
    rw [clear_kf_eq_init k hs]
    simp only [init_kf_count]
    rfl

/-- C1 at a concrete aggregate: position 1 of `reused_aggregate`. -/
theorem family_size_invariant_witness :
    Reachable 2 reused_aggregate ∧ (1 : Nat) < 2 ∧
      reused_aggregate.count 1 0 + reused_aggregate.count 1 1 + reused_aggregate.count 1 2 +
        reused_aggregate.count 1 3 + reused_aggregate.count 1 4 = reused_aggregate.length :=
  ⟨Reachable.push _ _ (Reachable.clear _ (Reachable.push _ _ (Reachable.init))),
    by decide,
    family_size_invariant 2 reused_aggregate
      (Reachable.push _ _ (Reachable.clear _ (Reachable.push _ _ (Reachable.init)))) 1
      (by decide)⟩

theorem tie_aggregate_sums : tie_aggregate.phred_sums = [[0, 0, 40, 40]] := by
  simp [tie_aggregate, accumulate, pushback_kseq, init_kf, pushback_step, updAt, NUC_TO_POS,
    kseq_t.seq_at, kseq_t.qual_at, cstr, char_to_int, List.range, List.range.loop,
    KingFisher_t.maxq, NUL]

theorem log_ten_lt_five : Real.log 10 < 5 := by
  rw [Real.log_lt_iff_lt_exp (by norm_num)]
  have h1 : (2 : ℝ) < Real.exp 1 := by
    have := Real.exp_one_gt_d9
    linarith
  have h5 : Real.exp 5 = Real.exp 1 ^ 5 := by
    rw [← Real.exp_nat_mul]; norm_num
  rw [h5]
  have : (2 : ℝ) ^ 5 < Real.exp 1 ^ 5 := pow_lt_pow_left₀ h1 (by norm_num) (by norm_num)
  linarith

theorem phred_sum_index_of_nuc (seq : kseq_t) (i j : Nat) (hj : j < 4)
    (hb : seq.seq_at i = 'A' ∨ seq.seq_at i = 'C' ∨ seq.seq_at i = 'G' ∨ seq.seq_at i = 'T') :
    (j = phred_sum_index seq i ∧ j < 4) ↔ seq.seq_at i = ARRG_MAX_TO_NUC j := by
  unfold phred_sum_index
  rcases hb with h | h | h | h <;> rw [h] <;>
    rcases (by omega : j = 0 ∨ j = 1 ∨ j = 2 ∨ j = 3) with h0 | h0 | h0 | h0 <;>
    subst h0 <;> decide

/-- C2. Base selection: `ARRG_MAX` followed by `ARRG_MAX_TO_NUC` gives 'T' when the T sum
is strictly above the G, C and A sums, otherwise 'G' when the G sum is strictly above the C
and A sums, otherwise 'C' when the C sum is strictly above the A sum, otherwise 'A'; so four
equal sums give 'A', and equal G and T sums strictly above the C and A sums give 'G'. -/
theorem base_selection (kfp : KingFisher_t) (index : Nat) :
    ARRG_MAX_TO_NUC (ARRG_MAX kfp index) =
      (if kfp.psum index 3 > kfp.psum index 2 ∧ kfp.psum index 3 > kfp.psum index 1 ∧
          kfp.psum index 3 > kfp.psum index 0 then 'T'
       else if kfp.psum index 2 > kfp.psum index 1 ∧ kfp.psum index 2 > kfp.psum index 0 then 'G'
       else if kfp.psum index 1 > kfp.psum index 0 then 'C'
       else 'A') ∧
    (kfp.psum index 0 = kfp.psum index 1 ∧ kfp.psum index 1 = kfp.psum index 2 ∧
        kfp.psum index 2 = kfp.psum index 3 →
      ARRG_MAX_TO_NUC (ARRG_MAX kfp index) = 'A') ∧
    (kfp.psum index 2 = kfp.psum index 3 ∧ kfp.psum index 2 > kfp.psum index 1 ∧
        kfp.psum index 2 > kfp.psum index 0 →
      ARRG_MAX_TO_NUC (ARRG_MAX kfp index) = 'G') := by
  refine ⟨?_, ?_, ?_⟩
  · unfold ARRG_MAX
    split
    · rfl
    · split
      · rfl
      · split <;> rfl
  · rintro ⟨h01, h12, h23⟩
    unfold ARRG_MAX
    rw [if_neg (fun h => by have := h.1; rw [h23] at this; exact lt_irrefl _ this),
      if_neg (fun h => by have := h.1; rw [h12] at this; exact lt_irrefl _ this),
      if_neg (fun h => by rw [h01] at h; exact lt_irrefl _ h)]
    rfl
  · rintro ⟨h23, h21, h20⟩
    unfold ARRG_MAX
    rw [if_neg (fun h => by have := h.1; rw [h23] at this; exact lt_irrefl _ this),
      if_pos ⟨h21, h20⟩]
    rfl

/-- C2 at `tie_aggregate`, whose sums at position 0 are A 0, C 0, G 40, T 40: the tie
between G and T selects 'G'. -/
theorem base_selection_witness :
    (tie_aggregate.psum 0 2 = tie_aggregate.psum 0 3 ∧
      tie_aggregate.psum 0 2 > tie_aggregate.psum 0 1 ∧
      tie_aggregate.psum 0 2 > tie_aggregate.psum 0 0) ∧
    ARRG_MAX_TO_NUC (ARRG_MAX tie_aggregate 0) = 'G' :=
  ⟨by simp [KingFisher_t.psum, tie_aggregate_sums],
    (base_selection tie_aggregate 0).2.2 (by simp [KingFisher_t.psum, tie_aggregate_sums])⟩

/-- C3, the claim fails on the code: a read whose base at position 0 is 'N' has count
index 0, so `pushback_kseq` raises the A slot of the fresh aggregate from 0 to 1 and leaves
slot 4, the N slot, at 0. -/
theorem ambiguous_base_counted_in_slot_0 :
    nuc_count_index ⟨cstr "N", cstr "I"⟩ 0 = 0 ∧
    (init_kf 1).nuc_counts = [[0, 0, 0, 0, 0]] ∧
    (pushback_kseq (init_kf 1) ⟨cstr "N", cstr "I"⟩).nuc_counts = [[1, 0, 0, 0, 0]] := by
  decide

/-- C4, the claim fails on the code: for a read whose base at position 0 is 'N' the
index used on the weight-sum row is 4, and the row allocated by `init_kf` has 4 entries
(indices 0..3). -/
theorem ambiguous_base_sum_index_is_4 :
    phred_sum_index ⟨cstr "N", cstr "I"⟩ 0 = 4 ∧
    ((init_kf 1).phred_sums.getD 0 []).length = 4 := by
  decide

/-- C5, refuted as stated: accumulating one read with base 'A' and quality byte 'I' (73,
Phred 40) into a fresh aggregate raises the A weight sum of position 0 from 0 to 40, not to
40 * ln(10)/5 and not to 40 * `LOG10E_X5_INV`. -/
theorem weight_sum_not_rescaled :
    (init_kf 1).psum 0 0 = 0 ∧
    (pushback_kseq (init_kf 1) ⟨cstr "A", cstr "I"⟩).psum 0 0 = 40 ∧
    (40 : ℚ) ≠ (73 - 33) * LOG10E_X5_INV ∧
    (40 : ℝ) ≠ (73 - 33) * (Real.log 10 / 5) := by
  refine ⟨?_, ?_, ?_, ?_⟩
  · simp [init_kf, KingFisher_t.psum]
  · simp [pushback_kseq, init_kf, pushback_step, KingFisher_t.psum, updAt, NUC_TO_POS,
      kseq_t.seq_at, kseq_t.qual_at, cstr, char_to_int, List.range, List.range.loop,
      KingFisher_t.maxq, NUL]
  · unfold LOG10E_X5_INV; norm_num
  · intro h
    have := log_ten_lt_five
    linarith

/-- C5, amended: at a position whose base is one of A, C, G, T, `pushback_kseq` adds the
Phred value `qual.s[i] - 33` itself to the weight sum of that base and leaves the other
three weight sums as they were. -/
theorem weight_sum_adds_phred (kfp : KingFisher_t) (seq : kseq_t) (i : Nat) (hs : kfp.shaped)
    (hi : i < kfp.readlen)
    (hb : seq.seq_at i = 'A' ∨ seq.seq_at i = 'C' ∨ seq.seq_at i = 'G' ∨ seq.seq_at i = 'T')
    (j : Nat) (hj : j < 4) :
    (pushback_kseq kfp seq).psum i j =
      if seq.seq_at i = ARRG_MAX_TO_NUC j then
        kfp.psum i j + ((char_to_int (seq.qual_at i) - 33 : Int) : ℚ)
      else kfp.psum i j := by
  rw [pushback_kseq_psum kfp seq hs]
  by_cases h : seq.seq_at i = ARRG_MAX_TO_NUC j
  · rw [if_pos h, if_pos ⟨hi, (phred_sum_index_of_nuc seq i j hj hb).mpr h⟩]
  · rw [if_neg h, if_neg (fun hh => h ((phred_sum_index_of_nuc seq i j hj hb).mp hh.2)), add_zero]

/-- C5 amended, at one read "A" with quality 'I' (Phred 40) pushed into `init_kf 1`: the
A sum of position 0 becomes 40 and the C sum stays 0. -/
theorem weight_sum_adds_phred_witness :
    (init_kf 1).shaped ∧ 0 < (init_kf 1).readlen ∧
    (kseq_t.mk (cstr "A") (cstr "I")).seq_at 0 = 'A' ∧
    (pushback_kseq (init_kf 1) ⟨cstr "A", cstr "I"⟩).psum 0 0 = 40 ∧
    (pushback_kseq (init_kf 1) ⟨cstr "A", cstr "I"⟩).psum 0 1 = 0 :=
  ⟨init_kf_shaped 1, by decide, by decide,
    (weight_sum_adds_phred (init_kf 1) ⟨cstr "A", cstr "I"⟩ 0 (init_kf_shaped 1) (by decide)
      (Or.inl (by decide)) 0 (by decide)).trans (by
        rw [if_pos (by decide), init_kf_psum,
          show char_to_int ((kseq_t.mk (cstr "A") (cstr "I")).qual_at 0) = 73 by decide]
        norm_num),
    (weight_sum_adds_phred (init_kf 1) ⟨cstr "A", cstr "I"⟩ 0 (init_kf_shaped 1) (by decide)
      (Or.inl (by decide)) 1 (by decide)).trans (by
        rw [if_neg (by decide), init_kf_psum])⟩

theorem foldl_pushback_count (reads : List kseq_t) (k : KingFisher_t) (hs : k.shaped) (i j : Nat)
    (hi : i < k.readlen) :
    (reads.foldl pushback_kseq k).count i j
      = k.count i j + (reads.countP (fun r => decide (nuc_count_index r i = j)) : Nat) := by
  induction reads generalizing k with
  | nil => simp
  | cons r rs ih =>
    simp only [List.foldl_cons]
    rw [ih _ (pushback_kseq_shaped k r hs) (by rw [pushback_kseq_readlen]; exact hi),
      pushback_kseq_count k r hs, List.countP_cons]
    by_cases h : j = nuc_count_index r i
    · subst h
      simp [hi]
      ring
    · have h' : ¬ nuc_count_index r i = j := fun e => h e.symm
      simp [h, h']

theorem accumulate_count (readlen : Nat) (reads : List kseq_t) (i j : Nat) (hi : i < readlen) :
    (accumulate readlen reads).count i j
      = (reads.countP (fun r => decide (nuc_count_index r i = j)) : Nat) := by
  unfold accumulate
  rw [foldl_pushback_count reads _ (init_kf_shaped readlen) i j hi, init_kf_count, zero_add]

theorem ambiguous_family_aggregate :
    accumulate 1 ambiguous_family =
      { nuc_counts := [[2, 0, 0, 0, 0]], phred_sums := [[40, 0, 0, 0]], length := 2, readlen := 1,
        max_phreds := ['I', NUL] } := by
  simp [ambiguous_family, accumulate, pushback_kseq, init_kf, pushback_step, updAt, NUC_TO_POS,
    kseq_t.seq_at, kseq_t.qual_at, cstr, char_to_int, List.range, List.range.loop,
    KingFisher_t.maxq, NUL]

/-- C6, the claim fails on the code: in the family of the two one-base reads "A" and "N"
the consensus base of position 0 is 'A' and the agreement value computed by
`dmp_process_write` is 2, although only one member read has the base 'A' there. -/
theorem agreement_counts_ambiguous_base :
    dmp_cons_seq (accumulate 1 ambiguous_family) = ['A'] ∧
    dmp_agrees (accumulate 1 ambiguous_family) = [2] ∧
    ambiguous_family.countP (fun r => decide (r.seq_at 0 = 'A')) = 1 := by
  refine ⟨?_, ?_, by decide⟩
  · rw [ambiguous_family_aggregate]
    norm_num [dmp_cons_seq, ARRG_MAX, KingFisher_t.psum, ARRG_MAX_TO_NUC, List.range, List.range.loop]
  · rw [ambiguous_family_aggregate]
    norm_num [dmp_agrees, ARRG_MAX, KingFisher_t.psum, KingFisher_t.count, List.range, List.range.loop]

theorem log_five_fourths_near :
    |Real.log (5 / 4) - 0.22314355131| < 1 / 10 ^ 9 := by
  have h := Real.abs_log_sub_add_sum_range_le (x := (1 / 5 : ℝ)) (by norm_num [abs_lt]) 13
  have hlog : Real.log (1 - 1 / 5) = - Real.log (5 / 4) := by
    rw [← Real.log_inv]; norm_num
  rw [hlog] at h
  have habs : |(1 / 5 : ℝ)| = 1 / 5 := abs_of_pos (by norm_num)
  rw [habs] at h
  norm_num [Finset.sum_range_succ] at h
  rw [abs_le] at h
  rw [abs_lt]
  constructor <;> linarith [h.1, h.2]

theorem log_ten_eq : Real.log 10 = 3 * Real.log 2 + Real.log (5 / 4) := by
  have h : (10 : ℝ) = 2 ^ 3 * (5 / 4) := by norm_num
  rw [h, Real.log_mul (by norm_num) (by norm_num), Real.log_pow]
  norm_num

theorem LOG10E_X5_INV_near : |((LOG10E_X5_INV : ℚ) : ℝ) - Real.log 10 / 5| < 1 / 10 ^ 9 := by
  have h2a := Real.log_two_gt_d9
  have h2b := Real.log_two_lt_d9
  have h5 := log_five_fourths_near
  rw [abs_lt] at h5
  rw [log_ten_eq, abs_lt]
  unfold LOG10E_X5_INV
  push_cast
  constructor <;> norm_num at * <;> linarith [h5.1, h5.2]

/-- C7. Confidence p-value: with `S` the winning weight sum of position `i` times
`LOG10E_X5_INV`, the p-value that `dmp_process_write` hands to `pvalue_to_phred` is 1 when
`S < 0` and `igamc length (S / 2)` otherwise; `cons_quals` holds the Phred values of these
p-values; and `LOG10E_X5_INV` is ln(10)/5 up to 10^-9. -/
theorem confidence_pvalue (log10 : ℚ → ℚ) (igamc : ℚ → ℚ → ℚ) (kfp : KingFisher_t) :
    (∀ i, dmp_pvalue igamc kfp i =
      if kfp.psum i (ARRG_MAX kfp i) * LOG10E_X5_INV < 0 then 1
      else igamc (kfp.length : ℚ) (kfp.psum i (ARRG_MAX kfp i) * LOG10E_X5_INV / 2)) ∧
    dmp_cons_quals log10 igamc kfp =
      (List.range kfp.readlen).map (fun i => pvalue_to_phred log10
        (if kfp.psum i (ARRG_MAX kfp i) * LOG10E_X5_INV < 0 then 1
         else igamc (kfp.length : ℚ) (kfp.psum i (ARRG_MAX kfp i) * LOG10E_X5_INV / 2))) ∧
    |((LOG10E_X5_INV : ℚ) : ℝ) - Real.log 10 / 5| < 1 / 10 ^ 9 :=
  ⟨fun _ => rfl, rfl, LOG10E_X5_INV_near⟩

theorem foldl_pushback_maxq (reads : List kseq_t) (k : KingFisher_t) (hs : k.shaped) (i : Nat)
    (hi : i < k.readlen) :
    ((reads.foldl pushback_kseq k).maxq i = k.maxq i ∨
      ∃ r ∈ reads, (reads.foldl pushback_kseq k).maxq i = r.qual_at i) ∧
    char_to_int (k.maxq i) ≤ char_to_int ((reads.foldl pushback_kseq k).maxq i) ∧
    ∀ r ∈ reads, char_to_int (r.qual_at i) ≤ char_to_int ((reads.foldl pushback_kseq k).maxq i) := by
  induction reads generalizing k with
  | nil => simp
  | cons r rs ih =>
    simp only [List.foldl_cons]
    obtain ⟨h1, h2, h3⟩ := ih (pushback_kseq k r) (pushback_kseq_shaped k r hs)
      (by rw [pushback_kseq_readlen]; exact hi)
    have hstep := pushback_kseq_maxq k r hs i
    by_cases hq : char_to_int (r.qual_at i) > char_to_int (k.maxq i)
    · rw [if_pos ⟨hi, hq⟩] at hstep
      rw [hstep] at h1 h2
      refine ⟨Or.inr ?_, by omega, ?_⟩
      · rcases h1 with h1 | ⟨r', hr', h1⟩
        · exact ⟨r, by simp, h1⟩
        · exact ⟨r', by simp [hr'], h1⟩
      · intro r' hr'
        rcases List.mem_cons.mp hr' with e | e
        · rw [e]; exact h2
        · exact h3 r' e
    · rw [if_neg (fun h => hq h.2)] at hstep
      rw [hstep] at h1 h2
      refine ⟨?_, h2, ?_⟩
      · rcases h1 with h1 | ⟨r', hr', h1⟩
        · exact Or.inl h1
        · exact Or.inr ⟨r', by simp [hr'], h1⟩
      · intro r' hr'
        rcases List.mem_cons.mp hr' with e | e
        · rw [e]; omega
        · exact h3 r' e

theorem char_to_int_of_lt (c : Char) (h : c.toNat < 128) : char_to_int c = (c.toNat : Int) := by
  unfold char_to_int; rw [if_pos h]

theorem char_to_int_NUL : char_to_int NUL = 0 := by decide

theorem max_phreds_eq (k : KingFisher_t) (hs : k.shaped) :
    k.max_phreds = (List.range k.readlen).map (fun i => k.maxq i) ++ [NUL] := by
  apply List.ext_getElem?
  intro n
  have hlen := hs.2.2.2.2.1
  by_cases hn : n < k.readlen
  · rw [List.getElem?_append_left (by simp [hn])]
    simp [hn, KingFisher_t.maxq, List.getD_eq_getElem?_getD, hlen,
      List.getElem?_eq_getElem (show n < k.max_phreds.length by omega)]
  · by_cases hn2 : n = k.readlen
    · subst hn2
      have hl := hs.2.2.2.2.2
      rw [List.getElem?_append_right (by simp)]
      simp only [List.length_map, List.length_range, Nat.sub_self]
      rw [List.getD_eq_getElem?_getD, List.getElem?_eq_getElem
        (show k.readlen < k.max_phreds.length by omega)] at hl
      rw [List.getElem?_eq_getElem (show k.readlen < k.max_phreds.length by omega)]
      simp only [Option.getD_some] at hl
      rw [hl]
      rfl
    · rw [List.getElem?_eq_none (by omega), List.getElem?_eq_none (by simp; omega)]

theorem c_string_append_NUL (l : List Char) (h : ∀ c ∈ l, c ≠ NUL) : c_string (l ++ [NUL]) = l := by
  unfold c_string
  induction l with
  | nil => simp [List.takeWhile]
  | cons a as ih =>
    have ha : a ≠ NUL := h a (by simp)
    simp only [List.cons_append, List.takeWhile_cons, bne_iff_ne, ne_eq, ha, not_false_eq_true,
      ↓reduceIte, List.cons.injEq, true_and]
    exact ih (fun c hc => h c (by simp [hc]))


theorem qual_at_mem (r : kseq_t) (i : Nat) (h : i < r.qual.length) : r.qual_at i ∈ r.qual :=
  getD_mem _ _ _ h

theorem dmp_process_write_written (NDEBUG : Bool) (log10 : ℚ → ℚ) (igamc : ℚ → ℚ → ℚ)
    (kfp : KingFisher_t) (comment : List Char) (bs_ptr blen : Nat)
    (hb : dmp_in_bounds log10 igamc kfp comment bs_ptr blen = true)
    (hp : NDEBUG = true ∨ dmp_pass comment bs_ptr = '0' ∨ dmp_pass comment bs_ptr = '1') :
    dmp_process_write NDEBUG log10 igamc kfp comment bs_ptr blen =
      dmp_result.written (dmp_name_buffer comment bs_ptr blen ++ cstr " " ++
        dmp_arr_tag_buffer (fill_fa_buffer kfp (dmp_agrees kfp))
          (fill_pv_buffer kfp (dmp_cons_quals log10 igamc kfp))
          (dmp_FPBuffer (dmp_pass comment bs_ptr)) (dmp_cons_seq kfp) kfp.max_phreds) := by
  unfold dmp_in_bounds at hb
  rw [Bool.and_eq_true] at hb
  unfold dmp_process_write
  simp only [hb.1, hb.2, Bool.not_true, Bool.false_eq_true, ↓reduceIte]
  rcases hp with h | h | h
  · simp [h]
  · simp [h]
  · simp [h]

theorem accumulate_maxq (readlen : Nat) (reads : List kseq_t) (hne : reads ≠ [])
    (hq : ∀ r ∈ reads, readlen ≤ r.qual.length ∧ ∀ c ∈ r.qual, 1 ≤ c.toNat ∧ c.toNat ≤ 127)
    (i : Nat) (hi : i < readlen) :
    (∃ r ∈ reads, (accumulate readlen reads).maxq i = r.qual_at i) ∧
    (∀ r ∈ reads, (r.qual_at i).toNat ≤ ((accumulate readlen reads).maxq i).toNat) ∧
    (accumulate readlen reads).maxq i ≠ NUL := by
  obtain ⟨h1, -, h3⟩ := foldl_pushback_maxq reads (init_kf readlen) (init_kf_shaped readlen) i hi
  have hrange : ∀ r ∈ reads, 1 ≤ (r.qual_at i).toNat ∧ (r.qual_at i).toNat ≤ 127 :=
    fun r hr => (hq r hr).2 _ (qual_at_mem r i (lt_of_lt_of_le hi (hq r hr).1))
  have hci : ∀ r ∈ reads, char_to_int (r.qual_at i) = ((r.qual_at i).toNat : Int) :=
    fun r hr => char_to_int_of_lt _ (by have := (hrange r hr).2; omega)
  obtain ⟨r0, hr0⟩ := List.exists_mem_of_ne_nil reads hne
  have hpos : 1 ≤ char_to_int ((accumulate readlen reads).maxq i) := by
    have := h3 r0 hr0
    rw [hci r0 hr0] at this
    have := (hrange r0 hr0).1
    unfold accumulate
    omega
  have hnn : (accumulate readlen reads).maxq i ≠ NUL := by
    intro e
    rw [e, char_to_int_NUL] at hpos
    omega
  have hex : ∃ r ∈ reads, (accumulate readlen reads).maxq i = r.qual_at i := by
    rcases h1 with h1 | h1
    · rw [init_kf_maxq] at h1
      exact absurd h1 hnn
    · exact h1
  refine ⟨hex, ?_, hnn⟩
  intro r hr
  obtain ⟨r', hr', e⟩ := hex
  have := h3 r hr
  have e' : (List.foldl pushback_kseq (init_kf readlen) reads).maxq i = r'.qual_at i := e
  rw [e', hci r hr, hci r' hr'] at this
  rw [e]
  exact_mod_cast this

/-- C9. For a non-empty family of reads of length at least `readlen` with quality bytes
in 1..127, accumulated into a fresh aggregate: at every position `i < readlen` the byte
`max_phreds[i]` is the quality byte of some member read at `i` and no member read has a
larger one there; and whenever `dmp_process_write` reaches its `fprintf`, the fourth line of
the record it writes is `max_phreds[0 .. readlen)`, not the `cons_quals` values (those appear
only in the `PV:B:` field). -/
theorem reported_quality_is_max (readlen : Nat) (reads : List kseq_t) (hne : reads ≠ [])
    (hq : ∀ r ∈ reads, readlen ≤ r.seq.length ∧ readlen ≤ r.qual.length ∧
      ∀ c ∈ r.qual, 1 ≤ c.toNat ∧ c.toNat ≤ 127) :
    (∀ i, i < readlen →
      (∃ r ∈ reads, (accumulate readlen reads).maxq i = r.qual_at i) ∧
      ∀ r ∈ reads, (r.qual_at i).toNat ≤ ((accumulate readlen reads).maxq i).toNat) ∧
    (∀ (NDEBUG : Bool) (log10 : ℚ → ℚ) (igamc : ℚ → ℚ → ℚ) (comment : List Char)
        (bs_ptr blen : Nat),
      dmp_in_bounds log10 igamc (accumulate readlen reads) comment bs_ptr blen = true →
      (NDEBUG = true ∨ dmp_pass comment bs_ptr = '0' ∨ dmp_pass comment bs_ptr = '1') →
      dmp_process_write NDEBUG log10 igamc (accumulate readlen reads) comment bs_ptr blen =
        dmp_result.written (dmp_name_buffer comment bs_ptr blen ++ cstr " " ++
          (fill_fa_buffer (accumulate readlen reads) (dmp_agrees (accumulate readlen reads)) ++
            cstr "\t" ++
            fill_pv_buffer (accumulate readlen reads)
              (dmp_cons_quals log10 igamc (accumulate readlen reads)) ++
            cstr "\t" ++ dmp_FPBuffer (dmp_pass comment bs_ptr) ++ cstr "\n" ++
            dmp_cons_seq (accumulate readlen reads) ++ cstr "\n+\n" ++
            (List.range readlen).map (fun i => (accumulate readlen reads).maxq i) ++
            cstr "\n"))) := by
  have hq' : ∀ r ∈ reads, readlen ≤ r.qual.length ∧ ∀ c ∈ r.qual, 1 ≤ c.toNat ∧ c.toNat ≤ 127 :=
    fun r hr => ⟨(hq r hr).2.1, (hq r hr).2.2⟩
  refine ⟨fun i hi => ⟨(accumulate_maxq readlen reads hne hq' i hi).1,
    (accumulate_maxq readlen reads hne hq' i hi).2.1⟩, ?_⟩
  intro NDEBUG log10 igamc comment bs_ptr blen hb hp
  rw [dmp_process_write_written NDEBUG log10 igamc _ comment bs_ptr blen hb hp]
  have hm := max_phreds_eq (accumulate readlen reads) (accumulate_shaped readlen reads)
  rw [accumulate_readlen] at hm
  have hc : c_string (accumulate readlen reads).max_phreds
      = (List.range readlen).map (fun i => (accumulate readlen reads).maxq i) := by
    rw [hm]
    apply c_string_append_NUL
    intro c hc
    obtain ⟨i, hi, rfl⟩ := List.mem_map.mp hc
    exact (accumulate_maxq readlen reads hne hq' i (List.mem_range.mp hi)).2.2
  unfold dmp_arr_tag_buffer
  rw [hc]

/-- C9 at `quality_family` (qualities "I5" and "5I", read length 2): the record written
for it has the quality line "II". -/
theorem reported_quality_is_max_witness :
    quality_family ≠ [] ∧
    (∀ r ∈ quality_family, 2 ≤ r.seq.length ∧ 2 ≤ r.qual.length ∧
      ∀ c ∈ r.qual, 1 ≤ c.toNat ∧ c.toNat ≤ 127) ∧
    dmp_in_bounds (fun _ => 0) (fun _ _ => 1) (accumulate 2 quality_family)
      (cstr "|FP=1|BS=ACGT") 9 4 = true ∧
    dmp_pass (cstr "|FP=1|BS=ACGT") 9 = '1' ∧
    dmp_process_write false (fun _ => 0) (fun _ _ => 1) (accumulate 2 quality_family)
        (cstr "|FP=1|BS=ACGT") 9 4 =
      dmp_result.written (cstr "@ACGT FA:B:,2,2\tPV:B:,0,0\tFP:i:1\nAC\n+\nII\n") :=
  ⟨by decide, by decide, by decide!, by decide,
    ((reported_quality_is_max 2 quality_family (by decide) (by decide)).2 false (fun _ => 0)
      (fun _ _ => 1) (cstr "|FP=1|BS=ACGT") 9 4 (by decide!) (Or.inr (Or.inr (by decide)))).trans
      (by decide!)⟩

/-- C10. Every `pushback_kseq` call adds exactly 1 to `length` and keeps `readlen`; a fresh
aggregate that accumulated the reads of a list has `length` equal to their number. -/
theorem family_size_counts_members :
    (∀ (kfp : KingFisher_t) (seq : kseq_t),
      (pushback_kseq kfp seq).length = kfp.length + 1 ∧
      (pushback_kseq kfp seq).readlen = kfp.readlen) ∧
    (∀ (readlen : Nat) (reads : List kseq_t),
      (accumulate readlen reads).length = (reads.length : Int) ∧
      (accumulate readlen reads).readlen = readlen) := by
  refine ⟨fun kfp seq => ⟨pushback_kseq_length kfp seq, pushback_kseq_readlen kfp seq⟩, ?_⟩
  intro readlen reads
  have h := foldl_pushback_frame reads (init_kf readlen)
  refine ⟨?_, h.2⟩
  unfold accumulate
  rw [h.1]
  simp [init_kf]

theorem acgt_family_aggregate :
    accumulate 4 acgt_family =
      { nuc_counts := [[3, 0, 0, 0, 0], [0, 3, 0, 0, 0], [0, 0, 3, 0, 0], [0, 0, 0, 3, 0]],
        phred_sums := [[120, 0, 0, 0], [0, 120, 0, 0], [0, 0, 120, 0], [0, 0, 0, 120]],
        length := 3, readlen := 4,
        max_phreds := ['I', 'I', 'I', 'I', NUL] } := by
  simp [acgt_family, acgt_read, accumulate, pushback_kseq, init_kf, pushback_step, updAt, NUC_TO_POS,
    kseq_t.seq_at, kseq_t.qual_at, cstr, char_to_int, List.range, List.range.loop,
    KingFisher_t.maxq, NUL]
  norm_num

/-- C11. Reset returns to the freshly-created state: for every aggregate reached from
`init_kf readlen` by accumulations (and resets), `clear_kf` gives exactly
`init_kf kfp.readlen`: `length` 0, `readlen` unchanged, every count, every weight sum and
every `max_phreds` byte zero. -/
theorem reset_returns_to_fresh (readlen : Nat) (kfp : KingFisher_t) (h : Reachable readlen kfp) :
    clear_kf kfp = init_kf kfp.readlen ∧
    (clear_kf kfp).length = 0 ∧ (clear_kf kfp).readlen = kfp.readlen ∧
    (∀ i j, (clear_kf kfp).count i j = 0) ∧ (∀ i j, (clear_kf kfp).psum i j = 0) ∧
    (∀ i, (clear_kf kfp).maxq i = NUL) := by
  have he := clear_kf_eq_init kfp (reachable_shaped readlen kfp h).1
  rw [he]
  exact ⟨rfl, rfl, rfl, fun i j => init_kf_count _ i j, fun i j => init_kf_psum _ i j,
    fun i => init_kf_maxq _ i⟩

/-- C11 at the aggregate of the three-identical-reads family. -/
theorem reset_returns_to_fresh_witness :
    Reachable 4 (accumulate 4 acgt_family) ∧
    clear_kf (accumulate 4 acgt_family) = init_kf 4 :=
  ⟨Reachable.push _ _ (Reachable.push _ _ (Reachable.push _ _ Reachable.init)),
    (reset_returns_to_fresh 4 (accumulate 4 acgt_family)
      (Reachable.push _ _ (Reachable.push _ _ (Reachable.push _ _ Reachable.init)))).1.trans
      (by rw [accumulate_readlen])⟩

/-- C12. Scenario, three identical reads "ACGT" with quality "IIII" accumulated into
`init_kf 4`: the consensus sequence is "ACGT", the agreement counts are 3, 3, 3, 3, `length`
is 3, and, whatever the external `log10` and `igamc` are, the four confidence values are
one and the same number (the Phred value of `igamc 3 (120 * LOG10E_X5_INV / 2)`). -/
theorem three_identical_reads (log10 : ℚ → ℚ) (igamc : ℚ → ℚ → ℚ) :
    dmp_cons_seq (accumulate 4 acgt_family) = cstr "ACGT" ∧
    dmp_agrees (accumulate 4 acgt_family) = [3, 3, 3, 3] ∧
    (accumulate 4 acgt_family).length = 3 ∧
    dmp_cons_quals log10 igamc (accumulate 4 acgt_family) =
      List.replicate 4 (pvalue_to_phred log10 (igamc 3 (120 * LOG10E_X5_INV / 2))) := by
  rw [acgt_family_aggregate]
  refine ⟨?_, ?_, rfl, ?_⟩
  · norm_num [dmp_cons_seq, ARRG_MAX, KingFisher_t.psum, ARRG_MAX_TO_NUC, List.range,
      List.range.loop, cstr]
  · norm_num [dmp_agrees, ARRG_MAX, KingFisher_t.psum, KingFisher_t.count, List.range,
      List.range.loop]
  · have hc : ¬ (120 * LOG10E_X5_INV < 0) := by unfold LOG10E_X5_INV; norm_num
    norm_num [dmp_cons_quals, dmp_pvalue, igamc_pvalues, LOG10_TO_CHI2, ARRG_MAX,
      KingFisher_t.psum, List.range, List.range.loop, hc, List.replicate]

theorem accumulate_pair_psum (readlen : Nat) (r1 r2 : kseq_t) (i j : Nat) (hi : i < readlen) :
    (accumulate readlen [r1, r2]).psum i j =
      (if j = phred_sum_index r1 i ∧ j < 4 then ((char_to_int (r1.qual_at i) - 33 : Int) : ℚ) else 0) +
      (if j = phred_sum_index r2 i ∧ j < 4 then ((char_to_int (r2.qual_at i) - 33 : Int) : ℚ) else 0) := by
  have hs1 := pushback_kseq_shaped (init_kf readlen) r1 (init_kf_shaped readlen)
  have hr1 : (pushback_kseq (init_kf readlen) r1).readlen = readlen := pushback_kseq_readlen _ _
  show (pushback_kseq (pushback_kseq (init_kf readlen) r1) r2).psum i j = _
  rw [pushback_kseq_psum _ r2 hs1, pushback_kseq_psum _ r1 (init_kf_shaped readlen), init_kf_psum,
    hr1]
  have hi' : i < (init_kf readlen).readlen := hi
  simp only [hi, hi', true_and, zero_add]

/-- C13. Scenario, two disagreeing reads: for any two reads whose bases at position 0 are
'A' with quality byte 63 (Phred 30) and 'C' with quality byte 43 (Phred 10), accumulated into
a fresh aggregate, the consensus base of position 0 is 'A' and its agreement count is 1. -/
theorem two_disagreeing_reads (readlen : Nat) (r1 r2 : kseq_t) (hlen : 0 < readlen)
    (hb1 : r1.seq_at 0 = 'A') (hq1 : r1.qual_at 0 = Char.ofNat 63)
    (hb2 : r2.seq_at 0 = 'C') (hq2 : r2.qual_at 0 = Char.ofNat 43) :
    ARRG_MAX_TO_NUC (ARRG_MAX (accumulate readlen [r1, r2]) 0) = 'A' ∧
    (dmp_cons_seq (accumulate readlen [r1, r2])).getD 0 NUL = 'A' ∧
    (dmp_agrees (accumulate readlen [r1, r2])).getD 0 0 = 1 := by
  have hp : ∀ j, (accumulate readlen [r1, r2]).psum 0 j =
      if j = 0 then 30 else if j = 1 then 10 else 0 := by
    intro j
    rw [accumulate_pair_psum readlen r1 r2 0 j hlen]
    have h1 : phred_sum_index r1 0 = 0 := by unfold phred_sum_index; rw [hb1]; rfl
    have h2 : phred_sum_index r2 0 = 1 := by unfold phred_sum_index; rw [hb2]; rfl
    have c1 : char_to_int (Char.ofNat 63) = 63 := by decide
    have c2 : char_to_int (Char.ofNat 43) = 43 := by decide
    rw [h1, h2, hq1, hq2, c1, c2]
    by_cases h0 : j = 0
    · subst h0; norm_num
    · by_cases h1 : j = 1
      · subst h1; norm_num
      · simp [h0, h1]
  have hc : (accumulate readlen [r1, r2]).count 0 0 = 1 := by
    rw [accumulate_count readlen _ 0 0 hlen]
    have h1 : nuc_count_index r1 0 = 0 := by unfold nuc_count_index; rw [hb1]; rfl
    have h2 : nuc_count_index r2 0 = 1 := by unfold nuc_count_index; rw [hb2]; rfl
    simp [List.countP_cons, h1, h2]
  have hw : ARRG_MAX (accumulate readlen [r1, r2]) 0 = 0 := by
    unfold ARRG_MAX
    simp only [hp]
    norm_num
  have hrl : (accumulate readlen [r1, r2]).readlen = readlen := accumulate_readlen _ _
  refine ⟨by rw [hw]; rfl, ?_, ?_⟩
  · unfold dmp_cons_seq
    rw [hrl]
    obtain ⟨n, rfl⟩ : ∃ n, readlen = n + 1 := ⟨readlen - 1, by omega⟩
    rw [List.range_succ_eq_map]
    simp only [List.map_cons, List.getD_cons_zero, hw]
    rfl
  · unfold dmp_agrees
    rw [hrl]
    obtain ⟨n, rfl⟩ : ∃ n, readlen = n + 1 := ⟨readlen - 1, by omega⟩
    rw [List.range_succ_eq_map]
    simp only [List.map_cons, List.getD_cons_zero, hw, hc]

/-- C13 at the one-base reads "A" (quality '?') and "C" (quality '+'). -/
theorem two_disagreeing_reads_witness :
    (0 : Nat) < 1 ∧
    (dmp_cons_seq (accumulate 1 disagreeing_family)).getD 0 NUL = 'A' ∧
    (dmp_agrees (accumulate 1 disagreeing_family)).getD 0 0 = 1 :=
  ⟨by decide, (two_disagreeing_reads 1 ⟨cstr "A", cstr "?"⟩ ⟨cstr "C", cstr "+"⟩ (by decide)
    (by decide) (by decide) (by decide) (by decide)).2⟩

theorem barcode_mem_view_loop_no_pipe (s : List Char) (i hits : Nat) (h : '|' ∉ s) :
    barcode_mem_view_loop s i hits = none := by
  induction s generalizing i with
  | nil => rfl
  | cons c s ih =>
    have hc : c ≠ '|' := fun e => h (by simp [e])
    have hs : '|' ∉ s := fun e => h (by simp [e])
    simp only [barcode_mem_view_loop, hc, if_false]
    exact ih (i + 1) hs

theorem barcode_mem_view_loop_skip (a rest : List Char) (i hits : Nat) (h : '|' ∉ a) :
    barcode_mem_view_loop (a ++ rest) i hits = barcode_mem_view_loop rest (i + a.length) hits := by
  induction a generalizing i with
  | nil => rfl
  | cons c a ih =>
    have hc : c ≠ '|' := fun e => h (by simp [e])
    have hs : '|' ∉ a := fun e => h (by simp [e])
    rw [List.cons_append]
    simp only [barcode_mem_view_loop, hc, if_false, List.length_cons]
    rw [ih (i + 1) hs]
    congr 1
    omega

theorem barcode_mem_view_two_pipes (a b c : List Char) (ha : '|' ∉ a) (hb : '|' ∉ b) :
    barcode_mem_view (a ++ '|' :: (b ++ '|' :: c)) = some (a.length + 1 + b.length + 4) := by
  unfold barcode_mem_view
  rw [barcode_mem_view_loop_skip a _ 0 0 ha]
  simp only [barcode_mem_view_loop, if_true]
  rw [barcode_mem_view_loop_skip b _ _ _ hb]
  simp only [barcode_mem_view_loop, if_true]
  simp

theorem barcode_mem_view_one_pipe (a b : List Char) (ha : '|' ∉ a) (hb : '|' ∉ b) :
    barcode_mem_view (a ++ '|' :: b) = none := by
  unfold barcode_mem_view
  rw [barcode_mem_view_loop_skip a _ 0 0 ha]
  simp only [barcode_mem_view_loop, if_true]
  exact barcode_mem_view_loop_no_pipe b _ _ hb

theorem split_at_first (c : Char) (s : List Char) (h : c ∈ s) :
    ∃ a b, s = a ++ c :: b ∧ c ∉ a := by
  induction s with
  | nil => simp at h
  | cons x s ih =>
    by_cases hx : x = c
    · exact ⟨[], s, by simp [hx], by simp⟩
    · have hs : c ∈ s := by
        rcases List.mem_cons.mp h with e | e
        · exact absurd e.symm hx
        · exact e
      obtain ⟨a, b, e, hn⟩ := ih hs
      refine ⟨x :: a, b, by simp [e], ?_⟩
      intro hm
      rcases List.mem_cons.mp hm with e' | e'
      · exact hx e'.symm
      · exact hn e'

theorem count_eq_zero_of_not_mem (c : Char) (s : List Char) (h : c ∉ s) : s.count c = 0 :=
  List.count_eq_zero_of_not_mem h


theorem cp_view2buf_clean (b : List Char) (hb : '|' ∉ b) (hn : NUL ∉ b) : cp_view2buf b = b := by
  induction b with
  | nil => rfl
  | cons c b ih =>
    have h1 : c ≠ '|' := fun e => hb (by simp [e])
    have h2 : c ≠ NUL := fun e => hn (by simp [e])
    have h3 : '|' ∉ b := fun e => hb (by simp [e])
    have h4 : NUL ∉ b := fun e => hn (by simp [e])
    simp only [cp_view2buf, h1, h2, or_self, if_false]
    rw [ih h3 h4]

/-- C14. Barcode/flag round trip: for a barcode `b` without `|` and NUL and a flag `f` in
{'0','1'} embedded by the sharder's convention, `barcode_mem_view` returns the offset of the
first byte of `b`, `cp_view2buf` copies out exactly `b`, and the byte 5 positions in front of
that offset, the `pass` value of `dmp_process_write`, is `f`. -/
theorem barcode_flag_round_trip (pre mid b : List Char) (f : Char) (hpre : '|' ∉ pre)
    (hmid : '|' ∉ mid) (hb : '|' ∉ b) (hn : NUL ∉ b) (hf : f = '0' ∨ f = '1') :
    barcode_mem_view (sharder_comment pre mid f b) = some (pre.length + 1 + mid.length + 1 + 4) ∧
    (sharder_comment pre mid f b).drop (pre.length + 1 + mid.length + 1 + 4) = b ∧
    cp_view2buf ((sharder_comment pre mid f b).drop (pre.length + 1 + mid.length + 1 + 4)) = b ∧
    dmp_pass (sharder_comment pre mid f b) (pre.length + 1 + mid.length + 1 + 4) = f := by
  have hfp : f ≠ '|' := by rcases hf with h | h <;> rw [h] <;> decide
  have hmf : '|' ∉ mid ++ [f] := by
    intro h
    rcases List.mem_append.mp h with h | h
    · exact hmid h
    · exact hfp (List.mem_singleton.mp h).symm
  have hshape : sharder_comment pre mid f b
      = pre ++ '|' :: ((mid ++ [f]) ++ '|' :: (cstr "BS=" ++ b)) := by
    simp [sharder_comment, cstr]
  have hdrop : (sharder_comment pre mid f b).drop (pre.length + 1 + mid.length + 1 + 4) = b := by
    have e : sharder_comment pre mid f b = (pre ++ '|' :: (mid ++ f :: cstr "|BS=")) ++ b := by
      simp [sharder_comment, cstr]
    rw [e]
    have hl : (pre ++ '|' :: (mid ++ f :: cstr "|BS=")).length
        = pre.length + 1 + mid.length + 1 + 4 := by
      simp [cstr]; omega
    rw [← hl, List.drop_left]
  refine ⟨?_, hdrop, ?_, ?_⟩
  · rw [hshape, barcode_mem_view_two_pipes pre (mid ++ [f]) _ hpre hmf]
    simp only [List.length_append, List.length_singleton, Option.some.injEq]
    omega
  · rw [hdrop]
    exact cp_view2buf_clean b hb hn
  · unfold dmp_pass
    have e : sharder_comment pre mid f b = (pre ++ '|' :: mid) ++ f :: (cstr "|BS=" ++ b) := by
      simp [sharder_comment]
    have hi : pre.length + 1 + mid.length + 1 + 4 - 5 = (pre ++ '|' :: mid).length := by
      simp; omega
    rw [hi, e, List.getD_append_right _ _ _ _ (Nat.le_refl _), Nat.sub_self]
    rfl

/-- C15. `barcode_mem_view` returns NULL exactly when the comment has fewer than two `|`
characters; a comment with at least two splits around its first two `|`, and then the
returned offset is the index of the second `|` plus 4. -/
theorem barcode_mem_view_null_iff (comment : List Char) :
    (barcode_mem_view comment = none ↔ comment.count '|' < 2) ∧
    (∀ a b c : List Char, comment = a ++ '|' :: (b ++ '|' :: c) → '|' ∉ a → '|' ∉ b →
      barcode_mem_view comment = some (a.length + 1 + b.length + 4)) ∧
    (2 ≤ comment.count '|' → ∃ a b c : List Char,
      comment = a ++ '|' :: (b ++ '|' :: c) ∧ '|' ∉ a ∧ '|' ∉ b) := by
  have hdec : ('|' ∉ comment ∧ comment.count '|' = 0) ∨
      (∃ a b : List Char, comment = a ++ '|' :: b ∧ '|' ∉ a ∧ '|' ∉ b ∧ comment.count '|' = 1) ∨
      (∃ a b c : List Char, comment = a ++ '|' :: (b ++ '|' :: c) ∧ '|' ∉ a ∧ '|' ∉ b ∧
        2 ≤ comment.count '|') := by
    by_cases h0 : '|' ∈ comment
    · obtain ⟨a, rest, e, ha⟩ := split_at_first '|' comment h0
      by_cases h1 : '|' ∈ rest
      · obtain ⟨b, c, e', hb⟩ := split_at_first '|' rest h1
        refine Or.inr (Or.inr ⟨a, b, c, by rw [e, e'], ha, hb, ?_⟩)
        rw [e, e']
        simp [List.count_append, List.count_cons_self]
        omega
      · refine Or.inr (Or.inl ⟨a, rest, e, ha, h1, ?_⟩)
        rw [e]
        simp [List.count_append, List.count_eq_zero_of_not_mem ha,
          List.count_eq_zero_of_not_mem h1]
    · exact Or.inl ⟨h0, List.count_eq_zero_of_not_mem h0⟩
  refine ⟨?_, ?_, ?_⟩
  · rcases hdec with ⟨h0, hc⟩ | ⟨a, b, e, ha, hb, hc⟩ | ⟨a, b, c, e, ha, hb, hc⟩
    · rw [hc]
      exact ⟨fun _ => by omega, fun _ => barcode_mem_view_loop_no_pipe comment 0 0 h0⟩
    · rw [hc, e]
      exact ⟨fun _ => by omega, fun _ => barcode_mem_view_one_pipe a b ha hb⟩
    · rw [e, barcode_mem_view_two_pipes a b c ha hb] at *
      constructor
      · intro h; cases h
      · intro h; omega
  · intro a b c e ha hb
    rw [e]
    exact barcode_mem_view_two_pipes a b c ha hb
  · intro h2
    rcases hdec with ⟨_, hc⟩ | ⟨_, _, _, _, _, hc⟩ | ⟨a, b, c, e, ha, hb, _⟩
    · omega
    · omega
    · exact ⟨a, b, c, e, ha, hb⟩


/-- C14 at the comment `~#!#~|FP=1|BS=ACGT`. -/
theorem barcode_flag_round_trip_witness :
    ('|' ∉ cstr "~#!#~" ∧ '|' ∉ cstr "FP=" ∧ '|' ∉ cstr "ACGT" ∧ NUL ∉ cstr "ACGT" ∧
      (('1' : Char) = '0' ∨ ('1' : Char) = '1')) ∧
    sharder_comment (cstr "~#!#~") (cstr "FP=") '1' (cstr "ACGT") = cstr "~#!#~|FP=1|BS=ACGT" ∧
    barcode_mem_view (sharder_comment (cstr "~#!#~") (cstr "FP=") '1' (cstr "ACGT")) = some 14 ∧
    cp_view2buf ((sharder_comment (cstr "~#!#~") (cstr "FP=") '1' (cstr "ACGT")).drop 14)
      = cstr "ACGT" ∧
    dmp_pass (sharder_comment (cstr "~#!#~") (cstr "FP=") '1' (cstr "ACGT")) 14 = '1' :=
  ⟨by decide, by decide,
    (barcode_flag_round_trip (cstr "~#!#~") (cstr "FP=") (cstr "ACGT") '1' (by decide) (by decide)
      (by decide) (by decide) (by decide)).1,
    (barcode_flag_round_trip (cstr "~#!#~") (cstr "FP=") (cstr "ACGT") '1' (by decide) (by decide)
      (by decide) (by decide) (by decide)).2.2.1,
    (barcode_flag_round_trip (cstr "~#!#~") (cstr "FP=") (cstr "ACGT") '1' (by decide) (by decide)
      (by decide) (by decide) (by decide)).2.2.2⟩

/-- C15 at two comments: `x|y` has one `|` and gives NULL; in `|FP=1|BS=ACGT` the second
`|` is at index 5 and the view starts at offset 9. -/
theorem barcode_mem_view_null_iff_witness :
    (cstr "x|y").count '|' < 2 ∧ barcode_mem_view (cstr "x|y") = none ∧
    (cstr "|FP=1|BS=ACGT" = [] ++ '|' :: (cstr "FP=1" ++ '|' :: cstr "BS=ACGT") ∧
      '|' ∉ ([] : List Char) ∧ '|' ∉ cstr "FP=1") ∧
    barcode_mem_view (cstr "|FP=1|BS=ACGT") = some 9 :=
  ⟨by decide, (barcode_mem_view_null_iff (cstr "x|y")).1.mpr (by decide), by decide,
    (barcode_mem_view_null_iff (cstr "|FP=1|BS=ACGT")).2.1 [] (cstr "FP=1") (cstr "BS=ACGT")
      (by decide) (by decide) (by decide)⟩

theorem read_bytes_length (src : List Char) (start n : Nat) : (read_bytes src start n).length = n := by
  simp [read_bytes]

theorem read_bytes_full (src : List Char) (start n : Nat) (h : start + n ≤ src.length) :
    read_bytes src start n = (src.drop start).take n := by
  apply List.ext_getElem
  · simp [read_bytes]; omega
  · intro i h1 h2
    simp only [read_bytes, List.length_map, List.length_range] at h1
    simp only [read_bytes, List.getElem_map, List.getElem_range, List.getElem_take,
      List.getElem_drop]
    rw [List.getD_eq_getElem?_getD, List.getElem?_eq_getElem (by omega)]
    rfl

theorem read_bytes_short (src : List Char) (start n : Nat) (h1 : start ≤ src.length)
    (h2 : src.length < start + n) :
    read_bytes src start n = src.drop start ++ List.replicate (start + n - src.length) NUL := by
  apply List.ext_getElem
  · simp [read_bytes]; omega
  · intro i hi1 hi2
    simp only [read_bytes, List.length_map, List.length_range] at hi1
    simp only [read_bytes, List.getElem_map, List.getElem_range]
    by_cases hlt : start + i < src.length
    · rw [List.getElem_append_left (by simp; omega), List.getElem_drop,
        List.getD_eq_getElem?_getD, List.getElem?_eq_getElem hlt]
      rfl
    · rw [List.getElem_append_right (by simp; omega), List.getElem_replicate,
        List.getD_eq_getElem?_getD, List.getElem?_eq_none (by omega)]
      rfl

theorem memcpy_mid (a m z src : List Char) (start : Nat) :
    memcpy (a ++ m ++ z) a.length src start m.length = a ++ read_bytes src start m.length ++ z := by
  unfold memcpy
  have h1 : (a ++ m ++ z).take a.length = a := by
    rw [List.append_assoc, List.take_left]
  have h2 : (a ++ m ++ z).drop (a.length + m.length) = z := by
    rw [← List.length_append, List.drop_left]
  rw [h1, h2]
  apply List.take_of_length_le
  simp [read_bytes_length]


theorem memcpy_at (a m z src : List Char) (pos start n : Nat) (hp : a.length = pos)
    (hn : m.length = n) :
    memcpy (a ++ m ++ z) pos src start n = a ++ read_bytes src start n ++ z := by
  subst hp; subst hn
  exact memcpy_mid a m z src start

theorem split_three (b : List Char) (n1 n2 n3 : Nat) (h : n1 + n2 + n3 ≤ b.length) :
    ∃ x1 x2 x3 : List Char, b = x1 ++ x2 ++ x3 ++ b.drop (n1 + n2 + n3) ∧
      x1.length = n1 ∧ x2.length = n2 ∧ x3.length = n3 := by
  refine ⟨b.take n1, (b.drop n1).take n2, (b.drop (n1 + n2)).take n3, ?_, ?_, ?_, ?_⟩
  · have e1 : b.drop (n1 + n2 + n3) = (b.drop (n1 + n2)).drop n3 := by
      rw [List.drop_drop]
    have e2 : b.drop (n1 + n2) = (b.drop n1).drop n2 := by
      rw [List.drop_drop]
    rw [e1, List.append_assoc, List.take_append_drop, e2, List.append_assoc,
      List.take_append_drop, List.take_append_drop]
  · simp; omega
  · simp; omega
  · simp; omega

theorem splitmark_barcode_copy_eq (barcode seq1 seq_index seq2 : List Char) (offset salt : Nat)
    (hcap : salt * 2 + seq_index.length ≤ barcode.length) :
    splitmark_barcode_copy barcode seq1 seq_index seq2 offset salt =
      read_bytes seq1 offset salt ++ seq_index ++ read_bytes seq2 offset salt ++
        barcode.drop (salt * 2 + seq_index.length) := by
  obtain ⟨x1, x2, x3, e, h1, h2, h3⟩ :=
    split_three barcode salt seq_index.length salt (by omega)
  have hd : salt + seq_index.length + salt = salt * 2 + seq_index.length := by omega
  rw [hd] at e
  generalize barcode.drop (salt * 2 + seq_index.length) = z at e ⊢
  subst e
  unfold splitmark_barcode_copy
  simp only []
  have s1 : memcpy (x1 ++ x2 ++ x3 ++ z) 0 seq1 offset salt
      = read_bytes seq1 offset salt ++ (x2 ++ x3 ++ z) := by
    have := memcpy_at [] x1 (x2 ++ x3 ++ z) seq1 0 offset salt rfl h1
    simpa [List.append_assoc] using this
  have s2 : memcpy (read_bytes seq1 offset salt ++ (x2 ++ x3 ++ z)) salt seq_index 0
      seq_index.length = read_bytes seq1 offset salt ++ seq_index ++ (x3 ++ z) := by
    have := memcpy_at (read_bytes seq1 offset salt) x2 (x3 ++ z) seq_index salt 0
      seq_index.length (read_bytes_length _ _ _) h2
    rw [read_bytes_full seq_index 0 seq_index.length (by omega), List.drop_zero,
      List.take_length] at this
    simpa [List.append_assoc] using this
  have s3 : memcpy (read_bytes seq1 offset salt ++ seq_index ++ (x3 ++ z))
      (salt + seq_index.length) seq2 offset salt
      = read_bytes seq1 offset salt ++ seq_index ++ read_bytes seq2 offset salt ++ z := by
    have := memcpy_at (read_bytes seq1 offset salt ++ seq_index) x3 z seq2
      (salt + seq_index.length) offset salt (by simp [read_bytes_length]) h3
    simpa [List.append_assoc] using this
  rw [s1, s2, s3]


theorem c_string_append_NUL_cons (l rest : List Char) (h : NUL ∉ l) :
    c_string (l ++ NUL :: rest) = l := by
  unfold c_string
  rw [List.takeWhile_append_of_pos (fun a ha => by
    have : a ≠ NUL := fun e => h (e ▸ ha)
    simpa using this)]
  simp [List.takeWhile]

theorem updAt_append_length {α : Type} (f : α → α) (a : List α) (x : α) (z : List α) :
    updAt f (a ++ x :: z) a.length = a ++ f x :: z := by
  induction a with
  | nil => rfl
  | cons y a ih => simp [updAt, ih]

theorem drop_eq_getD_cons (b : List Char) (n : Nat) (h : n < b.length) :
    b.drop n = b.getD n NUL :: b.drop (n + 1) := by
  rw [List.getD_eq_getElem?_getD, List.getElem?_eq_getElem h]
  exact List.drop_eq_getElem_cons h

theorem splitmark_barcode_first_eq (barcode seq1 seq_index seq2 : List Char) (offset salt : Nat)
    (hcap : salt * 2 + seq_index.length + 1 ≤ barcode.length) :
    splitmark_barcode_first barcode seq1 seq_index seq2 offset salt =
      read_bytes seq1 offset salt ++ seq_index ++ read_bytes seq2 offset salt ++
        NUL :: barcode.drop (salt * 2 + seq_index.length + 1) := by
  unfold splitmark_barcode_first
  rw [splitmark_barcode_copy_eq _ _ _ _ _ _ (by omega),
    drop_eq_getD_cons barcode _ (by omega)]
  have hl : (read_bytes seq1 offset salt ++ seq_index ++ read_bytes seq2 offset salt).length
      = salt * 2 + seq_index.length := by
    simp [read_bytes_length]; omega
  rw [← hl, updAt_append_length]

/-- The bytes that the barcode assembly stores for one read triplet whose mates have at
least `offset + salt` bases and whose barcode fits the barcode buffer: `mate1[offset ..
offset+salt)`, the `L` index bases and `mate2[offset .. offset+salt)`.  For the first
triplet they are followed by the NUL stored at bmf_sdmp.c:82; for a later triplet no NUL is
stored and the byte that follows is the one already in the buffer. -/
theorem barcode_layout_triplet (barcode seq1 seq_index seq2 : List Char) (offset salt : Nat)
    (h1 : offset + salt ≤ seq1.length) (h2 : offset + salt ≤ seq2.length)
    (hcap : salt * 2 + seq_index.length + 1 ≤ barcode.length) :
    ((seq1.drop offset).take salt ++ seq_index ++ (seq2.drop offset).take salt).length
      = 2 * salt + seq_index.length ∧
    splitmark_barcode_first barcode seq1 seq_index seq2 offset salt =
      ((seq1.drop offset).take salt ++ seq_index ++ (seq2.drop offset).take salt) ++
        NUL :: barcode.drop (salt * 2 + seq_index.length + 1) ∧
    splitmark_barcode_loop barcode seq1 seq_index seq2 offset salt =
      ((seq1.drop offset).take salt ++ seq_index ++ (seq2.drop offset).take salt) ++
        barcode.drop (salt * 2 + seq_index.length) ∧
    (NUL ∉ (seq1.drop offset).take salt ++ seq_index ++ (seq2.drop offset).take salt →
      c_string (splitmark_barcode_first barcode seq1 seq_index seq2 offset salt) =
        (seq1.drop offset).take salt ++ seq_index ++ (seq2.drop offset).take salt) ∧
    (NUL ∉ (seq1.drop offset).take salt ++ seq_index ++ (seq2.drop offset).take salt →
      barcode.getD (salt * 2 + seq_index.length) NUL = NUL →
      c_string (splitmark_barcode_loop barcode seq1 seq_index seq2 offset salt) =
        (seq1.drop offset).take salt ++ seq_index ++ (seq2.drop offset).take salt) := by
  have hf := splitmark_barcode_first_eq barcode seq1 seq_index seq2 offset salt hcap
  have hl : splitmark_barcode_loop barcode seq1 seq_index seq2 offset salt = _ :=
    splitmark_barcode_copy_eq barcode seq1 seq_index seq2 offset salt (by omega)
  rw [read_bytes_full seq1 offset salt h1, read_bytes_full seq2 offset salt h2] at hf hl
  refine ⟨?_, hf, hl, ?_, ?_⟩
  · simp only [List.length_append, List.length_take, List.length_drop]
    omega
  · intro hn
    rw [hf]
    exact c_string_append_NUL_cons _ _ hn
  · intro hn hz
    rw [hl, drop_eq_getD_cons barcode _ (by omega), hz]
    exact c_string_append_NUL_cons _ _ hn

/-- C18, amended: barcode assembly has no length check and produces a barcode for short
mates as well.  When mate1 has fewer than `offset + salt` bases (but at least `offset`),
`memcpy` runs into the NUL that ends the sequence and the barcode string is just the bases
mate1 has from `offset` on; when only mate2 is short the string is the salt of mate1, the
index bases and the bases mate2 has from `offset` on. -/
theorem barcode_assembly_unchecked (barcode seq1 seq_index seq2 : List Char) (offset salt : Nat)
    (hcap : salt * 2 + seq_index.length + 1 ≤ barcode.length) :
    (offset ≤ seq1.length → seq1.length < offset + salt → NUL ∉ seq1 →
      c_string (splitmark_barcode_first barcode seq1 seq_index seq2 offset salt)
        = seq1.drop offset ∧
      c_string (splitmark_barcode_loop barcode seq1 seq_index seq2 offset salt)
        = seq1.drop offset) ∧
    (offset + salt ≤ seq1.length → offset ≤ seq2.length → seq2.length < offset + salt →
      NUL ∉ seq1 → NUL ∉ seq_index → NUL ∉ seq2 →
      c_string (splitmark_barcode_first barcode seq1 seq_index seq2 offset salt)
        = (seq1.drop offset).take salt ++ seq_index ++ seq2.drop offset ∧
      c_string (splitmark_barcode_loop barcode seq1 seq_index seq2 offset salt)
        = (seq1.drop offset).take salt ++ seq_index ++ seq2.drop offset) := by
  have hf := splitmark_barcode_first_eq barcode seq1 seq_index seq2 offset salt hcap
  have hl : splitmark_barcode_loop barcode seq1 seq_index seq2 offset salt = _ :=
    splitmark_barcode_copy_eq barcode seq1 seq_index seq2 offset salt (by omega)
  have hrep : ∀ n : Nat, 0 < n → ∃ m, List.replicate n NUL = NUL :: List.replicate m NUL := by
    intro n hn
    exact ⟨n - 1, by rw [← List.replicate_succ]; congr 1; omega⟩
  constructor
  · intro ho hs hn
    have hnd : NUL ∉ seq1.drop offset := fun h => hn (List.mem_of_mem_drop h)
    obtain ⟨m, hm⟩ := hrep (offset + salt - seq1.length) (by omega)
    rw [read_bytes_short seq1 offset salt ho hs, hm] at hf hl
    constructor
    · rw [hf]
      simp only [List.append_assoc, List.cons_append]
      exact c_string_append_NUL_cons _ _ hnd
    · rw [hl]
      simp only [List.append_assoc, List.cons_append]
      exact c_string_append_NUL_cons _ _ hnd
  · intro h1 ho hs hn1 hni hn2
    have hnd : NUL ∉ (seq1.drop offset).take salt ++ seq_index ++ seq2.drop offset := by
      intro h
      rcases List.mem_append.mp h with h | h
      · rcases List.mem_append.mp h with h | h
        · exact hn1 (List.mem_of_mem_drop (List.mem_of_mem_take h))
        · exact hni h
      · exact hn2 (List.mem_of_mem_drop h)
    obtain ⟨m, hm⟩ := hrep (offset + salt - seq2.length) (by omega)
    rw [read_bytes_full seq1 offset salt h1, read_bytes_short seq2 offset salt ho hs, hm]
      at hf hl
    constructor
    · rw [hf]
      have e : List.take salt (List.drop offset seq1) ++ seq_index ++
          (List.drop offset seq2 ++ NUL :: List.replicate m NUL) ++
          NUL :: List.drop (salt * 2 + seq_index.length + 1) barcode
          = (List.take salt (List.drop offset seq1) ++ seq_index ++ List.drop offset seq2) ++
            NUL :: (List.replicate m NUL ++
              NUL :: List.drop (salt * 2 + seq_index.length + 1) barcode) := by
        simp [List.append_assoc]
      rw [e]
      exact c_string_append_NUL_cons _ _ hnd
    · rw [hl]
      have e : List.take salt (List.drop offset seq1) ++ seq_index ++
          (List.drop offset seq2 ++ NUL :: List.replicate m NUL) ++
          List.drop (salt * 2 + seq_index.length) barcode
          = (List.take salt (List.drop offset seq1) ++ seq_index ++ List.drop offset seq2) ++
            NUL :: (List.replicate m NUL ++
              List.drop (salt * 2 + seq_index.length) barcode) := by
        simp [List.append_assoc]
      rw [e]
      exact c_string_append_NUL_cons _ _ hnd


/-- C18, refuted as stated: for mate1 "ACG" (3 bases) with offset 1 and salt 3 the code
does not fail; it fills the barcode buffer and the barcode string is "CG". -/
theorem barcode_assembled_from_short_mate :
    (cstr "ACG").length < 1 + 3 ∧
    splitmark_barcode_first (List.replicate 12 NUL) (cstr "ACG") (cstr "TT") (cstr "GGGGG") 1 3
      = ['C', 'G', NUL, 'T', 'T', 'G', 'G', 'G', NUL, NUL, NUL, NUL] ∧
    c_string (splitmark_barcode_first (List.replicate 12 NUL) (cstr "ACG") (cstr "TT")
      (cstr "GGGGG") 1 3) = cstr "CG" := by
  decide

/-- C18 amended, at the same triplet. -/
theorem barcode_assembly_unchecked_witness :
    3 * 2 + (cstr "TT").length + 1 ≤ (List.replicate 12 NUL).length ∧
    (1 ≤ (cstr "ACG").length ∧ (cstr "ACG").length < 1 + 3 ∧ NUL ∉ cstr "ACG") ∧
    c_string (splitmark_barcode_first (List.replicate 12 NUL) (cstr "ACG") (cstr "TT")
      (cstr "GGGGG") 1 3) = cstr "CG" :=
  ⟨by decide, by decide,
    (((barcode_assembly_unchecked (List.replicate 12 NUL) (cstr "ACG") (cstr "TT") (cstr "GGGGG")
      1 3 (by decide)).1 (by decide) (by decide) (by decide)).1).trans (by decide)⟩

theorem maximal_runs_eq_nil (s : List Char) (h : maximal_runs s = []) : s = [] := by
  cases s with
  | nil => rfl
  | cons c s =>
    simp only [maximal_runs] at h
    split at h
    · split at h <;> simp at h
    · simp at h

theorem replicate_prefix_cons (m : Nat) (d : Char) (s : List Char) :
    List.replicate (m + 1) d <+: d :: s ↔ List.replicate m d <+: s := by
  rw [List.replicate_succ, List.cons_prefix_cons]
  simp

theorem head_run (s : List Char) (d : Char) (n : Nat) (rest : List (Char × Nat))
    (h : maximal_runs s = (d, n) :: rest) :
    (∃ s', s = d :: s') ∧ ∀ m, (List.replicate m d <+: s ↔ m ≤ n) := by
  induction s generalizing d n rest with
  | nil => simp [maximal_runs] at h
  | cons c s ih =>
    simp only [maximal_runs] at h
    split at h
    · rename_i d0 n0 rest0 h0
      obtain ⟨⟨s', hs'⟩, hp⟩ := ih d0 n0 rest0 h0
      split at h
      · rename_i hc
        simp only [List.cons.injEq, Prod.mk.injEq] at h
        obtain ⟨⟨hd, hn⟩, -⟩ := h
        subst hd; subst hn; subst hc
        refine ⟨⟨s, rfl⟩, ?_⟩
        intro m
        cases m with
        | zero => simp
        | succ k => rw [replicate_prefix_cons, hp k]; omega
      · rename_i hc
        simp only [List.cons.injEq, Prod.mk.injEq] at h
        obtain ⟨⟨hd, hn⟩, -⟩ := h
        subst hd; subst hn
        refine ⟨⟨s, rfl⟩, ?_⟩
        intro m
        cases m with
        | zero => simp
        | succ k =>
          rw [replicate_prefix_cons]
          cases k with
          | zero => simp
          | succ j =>
            constructor
            · intro hpre
              rw [hs', List.replicate_succ, List.cons_prefix_cons] at hpre
              exact absurd hpre.1 hc
            · intro hle; omega
    · rename_i h0
      have hs := maximal_runs_eq_nil s h0
      simp only [List.cons.injEq, Prod.mk.injEq] at h
      obtain ⟨⟨hd, hn⟩, -⟩ := h
      subst hd; subst hn; subst hs
      refine ⟨⟨[], rfl⟩, ?_⟩
      intro m
      cases m with
      | zero => simp
      | succ k =>
        rw [replicate_prefix_cons]
        cases k with
        | zero => simp
        | succ j => simp [List.replicate_succ]


theorem has_run_nil (t : Nat) (ht : 1 ≤ t) :
    ¬ ∃ (c : Char) (pre post : List Char), ([] : List Char) = pre ++ List.replicate t c ++ post := by
  rintro ⟨c, pre, post, h⟩
  have := congrArg List.length h
  simp at this
  omega

theorem has_run_cons (t : Nat) (ht : 1 ≤ t) (x : Char) (s : List Char) :
    (∃ (c : Char) (pre post : List Char), x :: s = pre ++ List.replicate t c ++ post) ↔
      (List.replicate t x <+: x :: s ∨
        ∃ (c : Char) (pre post : List Char), s = pre ++ List.replicate t c ++ post) := by
  obtain ⟨k, rfl⟩ : ∃ k, t = k + 1 := ⟨t - 1, by omega⟩
  constructor
  · rintro ⟨c, pre, post, h⟩
    cases pre with
    | nil =>
      left
      rw [List.nil_append, List.replicate_succ, List.cons_append] at h
      have hx : x = c := (List.cons.inj h).1
      subst hx
      exact ⟨post, by rw [h, List.replicate_succ, List.cons_append]⟩
    | cons y pre' =>
      right
      rw [List.cons_append, List.cons_append] at h
      exact ⟨c, pre', post, (List.cons.inj h).2⟩
  · rintro (⟨post, h⟩ | ⟨c, pre, post, h⟩)
    · exact ⟨x, [], post, by rw [List.nil_append, h]⟩
    · exact ⟨c, x :: pre, post, by rw [h]; simp⟩

theorem maximal_runs_has_run (t : Nat) (ht : 1 ≤ t) (b : List Char) :
    (∃ r ∈ maximal_runs b, t ≤ r.2) ↔
      ∃ (c : Char) (pre post : List Char), b = pre ++ List.replicate t c ++ post := by
  induction b with
  | nil =>
    constructor
    · rintro ⟨r, hr, -⟩
      simp [maximal_runs] at hr
    · intro h
      exact absurd h (has_run_nil t ht)
  | cons x s ih =>
    rw [has_run_cons t ht x s, ← ih]
    cases h0 : maximal_runs s with
    | nil =>
      have hr : maximal_runs (x :: s) = [(x, 1)] := by simp [maximal_runs, h0]
      have hp := (head_run (x :: s) x 1 [] hr).2 t
      rw [hr, hp]
      simp
    | cons r0 rest0 =>
      obtain ⟨d0, n0⟩ := r0
      by_cases hc : x = d0
      · subst hc
        have hr : maximal_runs (x :: s) = (x, n0 + 1) :: rest0 := by
          simp [maximal_runs, h0]
        have hp := (head_run (x :: s) x (n0 + 1) rest0 hr).2 t
        rw [hr, hp]
        simp only [List.mem_cons, exists_eq_or_imp]
        constructor
        · rintro (h | h)
          · exact Or.inl h
          · exact Or.inr (Or.inr h)
        · rintro (h | h | h)
          · exact Or.inl h
          · exact Or.inl (by omega)
          · exact Or.inr h
      · have hr : maximal_runs (x :: s) = (x, 1) :: (d0, n0) :: rest0 := by
          simp [maximal_runs, h0, hc]
        have hp := (head_run (x :: s) x 1 _ hr).2 t
        rw [hr, hp]
        simp only [List.mem_cons, exists_eq_or_imp]

/-- C19. Homopolymer flag and its boundary: for every barcode and every threshold of at
least 1, `test_hp` returns '0' (Fail) exactly when the barcode contains a run of one repeated
character of length at least the threshold, and '1' (Pass) exactly when it does not; a
barcode that is one run of `threshold - 1` characters passes and one run of `threshold`
characters fails. -/
theorem homopolymer_flag (barcode : List Char) (threshold : Nat) (ht : 1 ≤ threshold) :
    (test_hp barcode threshold = '0' ↔
      ∃ (c : Char) (pre post : List Char) (n : Nat), threshold ≤ n ∧
        barcode = pre ++ List.replicate n c ++ post) ∧
    (test_hp barcode threshold = '1' ↔
      ¬ ∃ (c : Char) (pre post : List Char) (n : Nat), threshold ≤ n ∧
        barcode = pre ++ List.replicate n c ++ post) ∧
    (∀ c : Char, test_hp (List.replicate (threshold - 1) c) threshold = '1') ∧
    (∀ c : Char, test_hp (List.replicate threshold c) threshold = '0') := by
  have hrun : (∃ (c : Char) (pre post : List Char) (n : Nat), threshold ≤ n ∧
        barcode = pre ++ List.replicate n c ++ post) ↔
      ∃ (c : Char) (pre post : List Char), barcode = pre ++ List.replicate threshold c ++ post := by
    constructor
    · rintro ⟨c, pre, post, n, hn, h⟩
      refine ⟨c, pre, List.replicate (n - threshold) c ++ post, ?_⟩
      rw [h]
      have : List.replicate n c
          = List.replicate threshold c ++ List.replicate (n - threshold) c := by
        rw [← List.replicate_add]; congr 1; omega
      rw [this, List.append_assoc, List.append_assoc, List.append_assoc]
    · rintro ⟨c, pre, post, h⟩
      exact ⟨c, pre, post, threshold, Nat.le_refl _, h⟩
  have hany : ∀ b : List Char, test_hp b threshold = '0' ↔ ∃ r ∈ maximal_runs b, threshold ≤ r.2 := by
    intro b
    unfold test_hp
    by_cases h : (maximal_runs b).any (fun r => decide (threshold ≤ r.2)) = true
    · rw [if_pos h]
      simp only [true_iff]
      simpa [List.any_eq_true] using h
    · rw [if_neg h]
      constructor
      · intro h'; exact absurd h' (by decide)
      · intro h'; exact absurd (by simpa [List.any_eq_true] using h') h
  have hone : ∀ b : List Char, test_hp b threshold = '1' ↔ ¬ test_hp b threshold = '0' := by
    intro b
    unfold test_hp
    split <;> decide
  have hfail : ∀ b : List Char, test_hp b threshold = '0' ↔
      ∃ (c : Char) (pre post : List Char), b = pre ++ List.replicate threshold c ++ post :=
    fun b => (hany b).trans (maximal_runs_has_run threshold ht b)
  refine ⟨(hfail barcode).trans hrun.symm, ?_, ?_, ?_⟩
  · rw [hone, hfail barcode, hrun]
  · intro c
    rw [hone, hfail]
    rintro ⟨c', pre, post, h⟩
    have := congrArg List.length h
    simp at this
    omega
  · intro c
    rw [hfail]
    exact ⟨c, [], [], by simp⟩

/-- C19 at the barcode of ten `A`s. -/
theorem homopolymer_flag_witness :
    (1 ≤ 5 ∧ 1 ≤ 11) ∧
    test_hp (cstr "AAAAAAAAAA") 5 = '0' ∧ test_hp (cstr "AAAAAAAAAA") 11 = '1' :=
  ⟨by decide,
    (homopolymer_flag (cstr "AAAAAAAAAA") 5 (by decide)).1.mpr
      ⟨'A', [], [], 10, by decide, by decide⟩,
    (homopolymer_flag (cstr "AAAAAAAAAA") 11 (by decide)).2.1.mpr (by
      rintro ⟨c, pre, post, n, hn, h⟩
      have := congrArg List.length h
      simp [cstr] at this
      omega)⟩


theorem nuc_digit_lt (c : Char) : nuc_digit c < 4 := by
  unfold nuc_digit
  split <;> decide

theorem binner_fold (l : List Char) (a : Nat) :
    l.foldl (fun bin c => 4 * bin + nuc_digit c) a
      = a * 4 ^ l.length + Nat.ofDigits 4 ((l.map nuc_digit).reverse) := by
  induction l generalizing a with
  | nil => simp
  | cons c l ih =>
    rw [List.foldl_cons, ih, List.map_cons, List.reverse_cons, Nat.ofDigits_append,
      Nat.ofDigits_singleton, List.length_reverse, List.length_map, List.length_cons]
    ring

/-- C20. Binning coverage: for a barcode of length at least `k`, the shard index is the
base-4 value of its first `k` characters (first character most significant, digits A=0, C=1,
G=2, T=3 and 0 for any other character), it lies in `[0, 4^k)`, and every barcode with the
same first `k` characters has the same index. -/
theorem binning_coverage (barcode : List Char) (k : Nat) (hk : k ≤ barcode.length) :
    get_binner barcode k = Nat.ofDigits 4 (((barcode.take k).map nuc_digit).reverse) ∧
    get_binner barcode k < 4 ^ k ∧
    (∀ other : List Char, k ≤ other.length → other.take k = barcode.take k →
      get_binner other k = get_binner barcode k) ∧
    nuc_digit 'A' = 0 ∧ nuc_digit 'C' = 1 ∧ nuc_digit 'G' = 2 ∧ nuc_digit 'T' = 3 ∧
    (∀ c : Char, c ≠ 'A' → c ≠ 'C' → c ≠ 'G' → c ≠ 'T' → nuc_digit c = 0) := by
  have hval : get_binner barcode k
      = Nat.ofDigits 4 (((barcode.take k).map nuc_digit).reverse) := by
    unfold get_binner
    rw [binner_fold, Nat.zero_mul, Nat.zero_add]
  refine ⟨hval, ?_, ?_, rfl, rfl, rfl, rfl, ?_⟩
  · rw [hval]
    have h := Nat.ofDigits_lt_base_pow_length (b := 4)
      (l := ((barcode.take k).map nuc_digit).reverse) (by decide) (by
        intro x hx
        rw [List.mem_reverse] at hx
        obtain ⟨c, -, rfl⟩ := List.mem_map.mp hx
        exact nuc_digit_lt c)
    rw [List.length_reverse, List.length_map, List.length_take, Nat.min_eq_left hk] at h
    exact h
  · intro other _ h
    unfold get_binner
    rw [h]
  · intro c hA hC hG hT
    unfold nuc_digit
    split <;> first | rfl | contradiction

/-- C20 at the barcode "GTNACCA" and k = 3: the index is 2*16 + 3*4 + 0 = 44, below 64. -/
theorem binning_coverage_witness :
    3 ≤ (cstr "GTNACCA").length ∧ get_binner (cstr "GTNACCA") 3 = 44 ∧
    get_binner (cstr "GTNACCA") 3 < 4 ^ 3 ∧
    get_binner (cstr "GTNTTTTTT") 3 = get_binner (cstr "GTNACCA") 3 :=
  ⟨by decide, by decide,
    (binning_coverage (cstr "GTNACCA") 3 (by decide)).2.1,
    (binning_coverage (cstr "GTNACCA") 3 (by decide)).2.2.1 (cstr "GTNTTTTTT") (by decide)
      (by decide)⟩

/-- C25. The fallthrough base selection is a first-maximum argmax: for every four weight
sums (rationals, so no NaN), `ARRG_MAX` returns an index in 0..3 whose sum is at least every
other sum and strictly above every sum at a smaller index, and it equals the naive scan
`first_max_scan` over A, C, G, T. -/
theorem arrg_max_is_first_argmax (kfp : KingFisher_t) (index : Nat) :
    ARRG_MAX kfp index ≤ 3 ∧
    (∀ j, j ≤ 3 → kfp.psum index j ≤ kfp.psum index (ARRG_MAX kfp index)) ∧
    (∀ j, j < ARRG_MAX kfp index → kfp.psum index j < kfp.psum index (ARRG_MAX kfp index)) ∧
    ARRG_MAX kfp index =
      first_max_scan (kfp.psum index 0) (kfp.psum index 1) (kfp.psum index 2) (kfp.psum index 3) := by
  generalize h0 : kfp.psum index 0 = s0
  generalize h1 : kfp.psum index 1 = s1
  generalize h2 : kfp.psum index 2 = s2
  generalize h3 : kfp.psum index 3 = s3
  have hcase : ∀ j, j ≤ 3 → j = 0 ∨ j = 1 ∨ j = 2 ∨ j = 3 := fun j hj => by omega
  unfold ARRG_MAX first_max_scan
  rw [h0, h1, h2, h3]
  by_cases a : s1 > s0 <;> by_cases b : s2 > s0 <;> by_cases c : s2 > s1 <;>
    by_cases d : s3 > s0 <;> by_cases e : s3 > s1 <;> by_cases f : s3 > s2 <;>
    simp only [a, b, c, d, e, f, and_self, and_true, true_and, and_false, false_and, if_true,
      if_false] <;>
    first
    | (exfalso; linarith)
    | (refine ⟨by omega, ?_, ?_⟩
       · intro j hj
         rcases hcase j hj with rfl | rfl | rfl | rfl <;> simp only [h0, h1, h2, h3] <;> linarith
       · intro j hj
         rcases hcase j (by omega) with rfl | rfl | rfl | rfl <;>
           simp only [h0, h1, h2, h3] <;> first | omega | linarith)

theorem getD_map_range {α : Type} (f : Nat → α) (n i : Nat) (d : α) (h : i < n) :
    ((List.range n).map f).getD i d = f i := by
  rw [List.getD_eq_getElem?_getD, List.getElem?_eq_getElem (by simpa using h)]
  simp

theorem reachable_count_nonneg (readlen : Nat) (k : KingFisher_t) (h : Reachable readlen k)
    (i j : Nat) : 0 ≤ k.count i j := by
  induction h with
  | init => rw [init_kf_count]
  | push k seq hk ih =>
    rw [pushback_kseq_count k seq (reachable_shaped readlen k hk).1]
    split <;> omega
  | clear k hk _ =>
    rw [clear_kf_eq_init k (reachable_shaped readlen k hk).1, init_kf_count]

theorem reachable_count_sum (readlen : Nat) (k : KingFisher_t) (h : Reachable readlen k)
    (i : Nat) (hi : i < readlen) :
    k.count i 0 + k.count i 1 + k.count i 2 + k.count i 3 + k.count i 4 = k.length := by
  induction h with
  | init =>
    simp only [init_kf_count]
    rfl
  | push k seq hk ih =>
    obtain ⟨hs, hr⟩ := reachable_shaped readlen k hk
    have hidx := nuc_count_index_le seq i
    have hlt : i < k.readlen := by rw [hr]; exact hi
    simp only [pushback_kseq_count k seq hs, pushback_kseq_length, hlt, true_and]
    rw [← ih]
    rcases (by omega : nuc_count_index seq i = 0 ∨ nuc_count_index seq i = 1 ∨
      nuc_count_index seq i = 2 ∨ nuc_count_index seq i = 3) with h0 | h0 | h0 | h0 <;>
      rw [h0] <;> simp <;> ring
  | clear k hk _ =>
    obtain ⟨hs, hr⟩ := reachable_shaped readlen k hk
    rw [clear_kf_eq_init k hs]
    simp only [init_kf_count]
    rfl

theorem ARRG_MAX_le (kfp : KingFisher_t) (index : Nat) : ARRG_MAX kfp index ≤ 3 := by
  unfold ARRG_MAX
  split_ifs <;> omega

/-- C27. Agreement never exceeds family size: for every aggregate obtained from `init_kf`
by accumulations and resets and every position `i < readlen`, the agreement count that
`dmp_process_write` reports, `nuc_counts[i][ARRG_MAX]`, is at least 0 and at most `length`. -/
theorem agreement_at_most_family_size (readlen : Nat) (kfp : KingFisher_t)
    (h : Reachable readlen kfp) (i : Nat) (hi : i < readlen) :
    (dmp_agrees kfp).getD i 0 = kfp.count i (ARRG_MAX kfp i) ∧
    0 ≤ (dmp_agrees kfp).getD i 0 ∧ (dmp_agrees kfp).getD i 0 ≤ kfp.length := by
  have hr := (reachable_shaped readlen kfp h).2
  have hv : (dmp_agrees kfp).getD i 0 = kfp.count i (ARRG_MAX kfp i) := by
    unfold dmp_agrees
    rw [getD_map_range _ _ _ _ (by rw [hr]; exact hi)]
  have hsum := reachable_count_sum readlen kfp h i hi
  have n0 := reachable_count_nonneg readlen kfp h i 0
  have n1 := reachable_count_nonneg readlen kfp h i 1
  have n2 := reachable_count_nonneg readlen kfp h i 2
  have n3 := reachable_count_nonneg readlen kfp h i 3
  have n4 := reachable_count_nonneg readlen kfp h i 4
  have hw := ARRG_MAX_le kfp i
  refine ⟨hv, ?_, ?_⟩
  · rw [hv]; exact reachable_count_nonneg readlen kfp h i _
  · rw [hv]
    rcases (by omega : ARRG_MAX kfp i = 0 ∨ ARRG_MAX kfp i = 1 ∨ ARRG_MAX kfp i = 2 ∨
      ARRG_MAX kfp i = 3) with e | e | e | e <;> rw [e] <;> omega

/-- C27 at position 1 of `reused_aggregate`. -/
theorem agreement_at_most_family_size_witness :
    Reachable 2 reused_aggregate ∧ (1 : Nat) < 2 ∧
    0 ≤ (dmp_agrees reused_aggregate).getD 1 0 ∧
    (dmp_agrees reused_aggregate).getD 1 0 ≤ reused_aggregate.length :=
  ⟨Reachable.push _ _ (Reachable.clear _ (Reachable.push _ _ (Reachable.init))), by decide,
    (agreement_at_most_family_size 2 reused_aggregate
      (Reachable.push _ _ (Reachable.clear _ (Reachable.push _ _ (Reachable.init)))) 1
      (by decide)).2⟩

theorem phred_sum_index_ambiguous (r : kseq_t) (i : Nat) (hA : r.seq_at i ≠ 'A')
    (hC : r.seq_at i ≠ 'C') (hG : r.seq_at i ≠ 'G') (hT : r.seq_at i ≠ 'T') :
    phred_sum_index r i = 4 := by
  unfold phred_sum_index NUC_TO_POS
  split <;> first | rfl | contradiction

theorem foldl_pushback_psum_ambiguous (reads : List kseq_t) (k : KingFisher_t) (hs : k.shaped)
    (i j : Nat)
    (hamb : ∀ r ∈ reads, r.seq_at i ≠ 'A' ∧ r.seq_at i ≠ 'C' ∧ r.seq_at i ≠ 'G' ∧
      r.seq_at i ≠ 'T') :
    (reads.foldl pushback_kseq k).psum i j = k.psum i j := by
  induction reads generalizing k with
  | nil => rfl
  | cons r rs ih =>
    simp only [List.foldl_cons]
    rw [ih _ (pushback_kseq_shaped k r hs) (fun r' hr' => hamb r' (by simp [hr'])),
      pushback_kseq_psum k r hs]
    obtain ⟨hA, hC, hG, hT⟩ := hamb r (by simp)
    rw [phred_sum_index_ambiguous r i hA hC hG hT]
    have : ¬ (i < k.readlen ∧ j = 4 ∧ j < 4) := fun h => by omega
    rw [if_neg this, add_zero]

/-- C28. Consensus sequence shape: for every aggregate the consensus sequence built by
`dmp_process_write` has exactly `readlen` characters, each of them 'A', 'C', 'G' or 'T' and
never 'N'; at a position where every member read has a non-ACGT base it is 'A'. -/
theorem consensus_sequence_shape (kfp : KingFisher_t) :
    (dmp_cons_seq kfp).length = kfp.readlen ∧
    (∀ c ∈ dmp_cons_seq kfp, c = 'A' ∨ c = 'C' ∨ c = 'G' ∨ c = 'T') ∧
    (∀ c ∈ dmp_cons_seq kfp, c ≠ 'N') ∧
    (∀ (readlen : Nat) (reads : List kseq_t) (i : Nat), i < readlen →
      (∀ r ∈ reads, r.seq_at i ≠ 'A' ∧ r.seq_at i ≠ 'C' ∧ r.seq_at i ≠ 'G' ∧ r.seq_at i ≠ 'T') →
      (dmp_cons_seq (accumulate readlen reads)).getD i NUL = 'A') := by
  have hmem : ∀ c ∈ dmp_cons_seq kfp, c = 'A' ∨ c = 'C' ∨ c = 'G' ∨ c = 'T' := by
    intro c hc
    obtain ⟨i, -, rfl⟩ := List.mem_map.mp hc
    unfold ARRG_MAX_TO_NUC
    split <;> simp
  refine ⟨by simp [dmp_cons_seq], hmem, ?_, ?_⟩
  · intro c hc
    rcases hmem c hc with e | e | e | e <;> rw [e] <;> decide
  · intro readlen reads i hi hamb
    have hp : ∀ j, (accumulate readlen reads).psum i j = 0 := by
      intro j
      unfold accumulate
      rw [foldl_pushback_psum_ambiguous reads _ (init_kf_shaped readlen) i j hamb, init_kf_psum]
    unfold dmp_cons_seq
    rw [getD_map_range _ _ _ _ (by rw [accumulate_readlen]; exact hi)]
    unfold ARRG_MAX
    simp only [hp, gt_iff_lt, lt_self_iff_false, and_self, if_false]
    rfl

/-- C28 at a family of two reads "N": the consensus base of position 0 is 'A'. -/
theorem consensus_sequence_shape_witness :
    ((0 : Nat) < 1 ∧
      ∀ r ∈ [kseq_t.mk (cstr "N") (cstr "I"), kseq_t.mk (cstr "N") (cstr "5")],
        r.seq_at 0 ≠ 'A' ∧ r.seq_at 0 ≠ 'C' ∧ r.seq_at 0 ≠ 'G' ∧ r.seq_at 0 ≠ 'T') ∧
    (dmp_cons_seq (accumulate 1
      [kseq_t.mk (cstr "N") (cstr "I"), kseq_t.mk (cstr "N") (cstr "5")])).getD 0 NUL = 'A' :=
  ⟨by decide,
    (consensus_sequence_shape (init_kf 0)).2.2.2 1
      [kseq_t.mk (cstr "N") (cstr "I"), kseq_t.mk (cstr "N") (cstr "5")] 0 (by decide)
      (by decide)⟩

theorem list_ext_getD {α : Type} (l1 l2 : List α) (d : α) (hl : l1.length = l2.length)
    (h : ∀ i, i < l1.length → l1.getD i d = l2.getD i d) : l1 = l2 := by
  induction l1 generalizing l2 with
  | nil =>
    cases l2 with
    | nil => rfl
    | cons b l2 => simp at hl
  | cons a l1 ih =>
    cases l2 with
    | nil => simp at hl
    | cons b l2 =>
      have h0 := h 0 (by simp)
      simp only [List.getD_cons_zero] at h0
      rw [h0, ih l2 (by simpa using hl) (fun i hi => by
        have := h (i + 1) (by simpa using hi)
        simpa using this)]

theorem rows_ext {α : Type} (l1 l2 : List (List α)) (d : α) (n : Nat)
    (hl : l1.length = l2.length)
    (h1 : ∀ row ∈ l1, row.length = n) (h2 : ∀ row ∈ l2, row.length = n)
    (h : ∀ i j, (l1.getD i []).getD j d = (l2.getD i []).getD j d) : l1 = l2 := by
  apply list_ext_getD l1 l2 [] hl
  intro i hi
  have r1 := h1 _ (getD_mem l1 i [] hi)
  have r2 := h2 _ (getD_mem l2 i [] (by omega))
  exact list_ext_getD _ _ d (by omega) (fun j _ => h i j)

theorem shaped_ext (k1 k2 : KingFisher_t) (h1 : k1.shaped) (h2 : k2.shaped)
    (hr : k1.readlen = k2.readlen) (hl : k1.length = k2.length)
    (hc : ∀ i j, k1.count i j = k2.count i j) (hp : ∀ i j, k1.psum i j = k2.psum i j)
    (hm : ∀ i, k1.maxq i = k2.maxq i) : k1 = k2 := by
  obtain ⟨a1, a2, a3, a4, a5, -⟩ := h1
  obtain ⟨b1, b2, b3, b4, b5, -⟩ := h2
  have e1 : k1.nuc_counts = k2.nuc_counts :=
    rows_ext _ _ 0 5 (by omega) a2 b2 hc
  have e2 : k1.phred_sums = k2.phred_sums :=
    rows_ext _ _ 0 4 (by omega) a4 b4 hp
  have e3 : k1.max_phreds = k2.max_phreds :=
    list_ext_getD _ _ NUL (by omega) (fun i _ => hm i)
  cases k1; cases k2
  simp only [KingFisher_t.mk.injEq]
  exact ⟨e1, e2, hl, hr, e3⟩

theorem char_to_int_inj (c1 c2 : Char) (h1 : c1.toNat < 256) (h2 : c2.toNat < 256)
    (h : char_to_int c1 = char_to_int c2) : c1 = c2 := by
  have hn : c1.toNat = c2.toNat := by
    unfold char_to_int at h
    split at h <;> split at h <;> omega
  apply Char.ext
  apply UInt32.ext
  exact hn

theorem qual_at_byte (r : kseq_t) (h : ∀ c ∈ r.qual, c.toNat < 256) (i : Nat) :
    (r.qual_at i).toNat < 256 := by
  unfold kseq_t.qual_at
  by_cases hi : i < r.qual.length
  · exact h _ (getD_mem r.qual i NUL hi)
  · rw [List.getD_eq_default _ _ (by omega)]
    decide

theorem pushback_kseq_comm (k : KingFisher_t) (hs : k.shaped) (r1 r2 : kseq_t)
    (h1 : ∀ c ∈ r1.qual, c.toNat < 256) (h2 : ∀ c ∈ r2.qual, c.toNat < 256) :
    pushback_kseq (pushback_kseq k r1) r2 = pushback_kseq (pushback_kseq k r2) r1 := by
  have s1 := pushback_kseq_shaped k r1 hs
  have s2 := pushback_kseq_shaped k r2 hs
  have e1 := pushback_kseq_readlen k r1
  have e2 := pushback_kseq_readlen k r2
  apply shaped_ext _ _ (pushback_kseq_shaped _ r2 s1) (pushback_kseq_shaped _ r1 s2)
  · simp only [pushback_kseq_readlen]
  · simp only [pushback_kseq_length]
  · intro i j
    rw [pushback_kseq_count _ _ s1, pushback_kseq_count _ _ s2, pushback_kseq_count _ _ hs,
      pushback_kseq_count _ _ hs, e1, e2]
    ring
  · intro i j
    rw [pushback_kseq_psum _ _ s1, pushback_kseq_psum _ _ s2, pushback_kseq_psum _ _ hs,
      pushback_kseq_psum _ _ hs, e1, e2]
    ring
  · intro i
    rw [pushback_kseq_maxq _ _ s1, pushback_kseq_maxq _ _ s2, pushback_kseq_maxq _ _ hs,
      pushback_kseq_maxq _ _ hs, e1, e2]
    have b1 := qual_at_byte r1 h1 i
    have b2 := qual_at_byte r2 h2 i
    have inj := char_to_int_inj _ _ b1 b2
    by_cases hi : i < k.readlen
    · simp only [hi, true_and]
      by_cases c1 : char_to_int (r1.qual_at i) > char_to_int (k.maxq i) <;>
      by_cases c2 : char_to_int (r2.qual_at i) > char_to_int (k.maxq i) <;>
      simp only [c1, c2, if_true, if_false]
      · by_cases c3 : char_to_int (r2.qual_at i) > char_to_int (r1.qual_at i) <;>
        by_cases c4 : char_to_int (r1.qual_at i) > char_to_int (r2.qual_at i) <;>
        simp only [c3, c4, if_true, if_false]
        · omega
        · exact inj (by omega)
      · rw [if_neg (by omega)]
      · rw [if_neg (by omega)]
    · simp only [hi, false_and, if_false]

theorem foldl_pushback_perm (reads1 reads2 : List kseq_t) (hp : reads1.Perm reads2) :
    ∀ (k : KingFisher_t), k.shaped → (∀ r ∈ reads1, ∀ c ∈ r.qual, c.toNat < 256) →
      reads1.foldl pushback_kseq k = reads2.foldl pushback_kseq k := by
  induction hp with
  | nil => intro k _ _; rfl
  | cons x _ ih =>
    intro k hs hq
    simp only [List.foldl_cons]
    exact ih _ (pushback_kseq_shaped k x hs) (fun r hr => hq r (List.mem_cons_of_mem _ hr))
  | swap x y l =>
    intro k hs hq
    simp only [List.foldl_cons]
    rw [pushback_kseq_comm k hs y x (hq y (by simp)) (hq x (by simp))]
  | trans p1 _ ih1 ih2 =>
    intro k hs hq
    rw [ih1 k hs hq]
    exact ih2 k hs (fun r hr => hq r (p1.mem_iff.mpr hr))

/-- C26. Accumulation is order-independent: on an aggregate with the allocation shape of
`init_kf`, accumulating `r1` then `r2` with `pushback_kseq` gives the same aggregate
(counts, weight sums, `max_phreds`, `length`, `readlen`) as accumulating `r2` then `r1`,
for all reads whose quality strings are made of bytes; hence `dmp_process_write` gives
the same result on both, and any reordering of a family of reads accumulates to the same
aggregate. -/
theorem accumulation_order_independent (k : KingFisher_t) (hs : k.shaped) (r1 r2 : kseq_t)
    (h1 : ∀ c ∈ r1.qual, c.toNat < 256) (h2 : ∀ c ∈ r2.qual, c.toNat < 256) :
    pushback_kseq (pushback_kseq k r1) r2 = pushback_kseq (pushback_kseq k r2) r1 ∧
    (∀ (NDEBUG : Bool) (log10 : ℚ → ℚ) (igamc : ℚ → ℚ → ℚ) (comment : List Char)
        (bs_ptr blen : Nat),
      dmp_process_write NDEBUG log10 igamc (pushback_kseq (pushback_kseq k r1) r2)
          comment bs_ptr blen =
        dmp_process_write NDEBUG log10 igamc (pushback_kseq (pushback_kseq k r2) r1)
          comment bs_ptr blen) ∧
    (∀ (reads1 reads2 : List kseq_t), reads1.Perm reads2 →
      (∀ r ∈ reads1, ∀ c ∈ r.qual, c.toNat < 256) →
      reads1.foldl pushback_kseq k = reads2.foldl pushback_kseq k) := by
  have e := pushback_kseq_comm k hs r1 r2 h1 h2
  refine ⟨e, ?_, ?_⟩
  · intro NDEBUG log10 igamc comment bs_ptr blen
    rw [e]
  · intro reads1 reads2 hp hq
    exact foldl_pushback_perm reads1 reads2 hp k hs hq

/-- Witness of C26: the two reads "AC"/"I5" and "AC"/"5I" accumulated into a fresh
aggregate of read length 2, in both orders. -/
theorem accumulation_order_independent_witness :
    (init_kf 2).shaped ∧
    pushback_kseq (pushback_kseq (init_kf 2) ⟨cstr "AC", cstr "I5"⟩) ⟨cstr "AG", cstr "5I"⟩
      = pushback_kseq (pushback_kseq (init_kf 2) ⟨cstr "AG", cstr "5I"⟩) ⟨cstr "AC", cstr "I5"⟩ :=
  ⟨init_kf_shaped 2,
    (accumulation_order_independent (init_kf 2) (init_kf_shaped 2) ⟨cstr "AC", cstr "I5"⟩
      ⟨cstr "AG", cstr "5I"⟩ (by decide) (by decide)).1⟩

theorem pair_append_getElem_opt {α : Type} (a b : α) (l : List α) (n : Nat) :
    ([a, b] ++ l)[n + 2]? = l[n]? := by
  simp

theorem splitmark_loop_length (settings : marksplit_settings_t) (in1 : List kseq_t) :
    ∀ (barcode : List Char) (in2 in_index : List kseq_t),
      (splitmark_loop settings barcode in1 in2 in_index).length =
        2 * min (min in1.length in2.length) in_index.length := by
  induction in1 with
  | nil => intro barcode in2 in_index; simp [splitmark_loop]
  | cons seq1 in1 ih =>
    intro barcode in2 in_index
    cases in2 with
    | nil => simp [splitmark_loop]
    | cons seq2 in2 =>
      cases in_index with
      | nil => simp [splitmark_loop]
      | cons seq_index in_index =>
        simp only [splitmark_loop, List.length_append, ih, splitmark_route, List.length_cons,
          List.length_nil]
        omega

theorem splitmark_loop_pairs (settings : marksplit_settings_t) (in1 : List kseq_t) :
    ∀ (barcode : List Char) (in2 in_index : List kseq_t) (t : Nat),
      2 * t < (splitmark_loop settings barcode in1 in2 in_index).length →
      ∃ (seq1 seq2 seq_index : kseq_t) (prev : List Char),
        in1[t]? = some seq1 ∧ in2[t]? = some seq2 ∧ in_index[t]? = some seq_index ∧
        (splitmark_loop settings barcode in1 in2 in_index)[2 * t]? =
          some ⟨1, get_binner (c_string (splitmark_barcode_loop prev seq1.seq seq_index.seq
              seq2.seq settings.offset settings.salt)) settings.n_nucs, seq1,
            c_string (splitmark_barcode_loop prev seq1.seq seq_index.seq seq2.seq
              settings.offset settings.salt),
            test_hp (c_string (splitmark_barcode_loop prev seq1.seq seq_index.seq seq2.seq
              settings.offset settings.salt)) settings.hp_threshold⟩ ∧
        (splitmark_loop settings barcode in1 in2 in_index)[2 * t + 1]? =
          some ⟨2, get_binner (c_string (splitmark_barcode_loop prev seq1.seq seq_index.seq
              seq2.seq settings.offset settings.salt)) settings.n_nucs, seq2,
            c_string (splitmark_barcode_loop prev seq1.seq seq_index.seq seq2.seq
              settings.offset settings.salt),
            test_hp (c_string (splitmark_barcode_loop prev seq1.seq seq_index.seq seq2.seq
              settings.offset settings.salt)) settings.hp_threshold⟩ := by
  induction in1 with
  | nil => intro barcode in2 in_index t h; simp [splitmark_loop] at h
  | cons seq1 in1 ih =>
    intro barcode in2 in_index t h
    cases in2 with
    | nil => simp [splitmark_loop] at h
    | cons seq2 in2 =>
      cases in_index with
      | nil => simp [splitmark_loop] at h
      | cons seq_index in_index =>
        cases t with
        | zero =>
          exact ⟨seq1, seq2, seq_index, barcode, by simp, by simp, by simp,
            by simp [splitmark_loop, splitmark_route],
            by simp [splitmark_loop, splitmark_route]⟩
        | succ t =>
          have h2 : 2 * t < (splitmark_loop settings
              (splitmark_barcode_loop barcode seq1.seq seq_index.seq seq2.seq
                settings.offset settings.salt) in1 in2 in_index).length := by
            simp only [splitmark_loop, List.length_append, splitmark_route, List.length_cons,
              List.length_nil] at h
            omega
          obtain ⟨r1, r2, ri, prev, e1, e2, e3, e4, e5⟩ := ih _ in2 in_index t h2
          refine ⟨r1, r2, ri, prev, by simpa using e1, by simpa using e2, by simpa using e3,
            ?_, ?_⟩
          · rw [← e4]
            simp only [splitmark_loop, splitmark_route]
            rw [show 2 * (t + 1) = 2 * t + 2 from by omega]
            exact pair_append_getElem_opt _ _ _ _
          · rw [← e5]
            simp only [splitmark_loop, splitmark_route]
            rw [show 2 * (t + 1) + 1 = 2 * t + 1 + 2 from by omega]
            exact pair_append_getElem_opt _ _ _ _

/-- C21, the claim refuted: the mate-1 input has two records, the mate-2 and index inputs
one each, and `splitmark_core_rescale` completes normally, having written the one common
triplet; so it does when the index input is the short one, or the mate-2 input. -/
theorem desynchronised_streams_complete :
    splitmark_core_rescale ⟨10, 1, 0, 0⟩ (List.replicate 8 NUL)
        [⟨cstr "AC", cstr "II"⟩, ⟨cstr "GT", cstr "II"⟩] [⟨cstr "TT", cstr "II"⟩]
        [⟨cstr "CA", cstr "II"⟩] =
      splitmark_outcome.completed [⟨1, 1, ⟨cstr "AC", cstr "II"⟩, cstr "CA", '1'⟩,
        ⟨2, 1, ⟨cstr "TT", cstr "II"⟩, cstr "CA", '1'⟩] ∧
    splitmark_core_rescale ⟨10, 1, 0, 0⟩ (List.replicate 8 NUL)
        [⟨cstr "AC", cstr "II"⟩, ⟨cstr "GT", cstr "II"⟩]
        [⟨cstr "TT", cstr "II"⟩, ⟨cstr "GG", cstr "II"⟩] [⟨cstr "CA", cstr "II"⟩] =
      splitmark_outcome.completed [⟨1, 1, ⟨cstr "AC", cstr "II"⟩, cstr "CA", '1'⟩,
        ⟨2, 1, ⟨cstr "TT", cstr "II"⟩, cstr "CA", '1'⟩] ∧
    splitmark_core_rescale ⟨10, 1, 0, 0⟩ (List.replicate 8 NUL)
        [⟨cstr "AC", cstr "II"⟩, ⟨cstr "GT", cstr "II"⟩] [⟨cstr "TT", cstr "II"⟩]
        [⟨cstr "CA", cstr "II"⟩, ⟨cstr "AA", cstr "II"⟩] =
      splitmark_outcome.completed [⟨1, 1, ⟨cstr "AC", cstr "II"⟩, cstr "CA", '1'⟩,
        ⟨2, 1, ⟨cstr "TT", cstr "II"⟩, cstr "CA", '1'⟩] := by
  decide

/-- C21 amended: `splitmark_core_rescale` ends with the fatal error exactly when one of
the three inputs has no record at all; in every other case it completes normally, having
written two records for each triplet of the common prefix, that is twice the smallest of
the three record counts, and nothing for the records behind it. -/
theorem splitmark_fatal_iff_empty_input (settings : marksplit_settings_t) (barcode : List Char)
    (in1 in2 in_index : List kseq_t) :
    (splitmark_core_rescale settings barcode in1 in2 in_index = splitmark_outcome.exit_failure ↔
      in1 = [] ∨ in2 = [] ∨ in_index = []) ∧
    (in1 ≠ [] ∧ in2 ≠ [] ∧ in_index ≠ [] →
      ∃ writes, splitmark_core_rescale settings barcode in1 in2 in_index =
          splitmark_outcome.completed writes ∧
        writes.length = 2 * min (min in1.length in2.length) in_index.length) := by
  cases in1 with
  | nil => simp [splitmark_core_rescale, kseq_read]
  | cons seq1 in1 =>
    cases in2 with
    | nil => simp [splitmark_core_rescale, kseq_read]
    | cons seq2 in2 =>
      cases in_index with
      | nil => simp [splitmark_core_rescale, kseq_read]
      | cons seq_index in_index =>
        simp only [splitmark_core_rescale, kseq_read, reduceCtorEq, false_or, or_self,
          ne_eq, not_false_eq_true, and_self, true_implies, false_iff, not_false_iff,
          true_and]
        refine ⟨_, rfl, ?_⟩
        simp only [List.length_append, splitmark_loop_length, splitmark_route, List.length_cons,
          List.length_nil]
        omega

/-- Witness of C21 amended: mate-1 input of two records, mate-2 and index inputs of one
record each; the run completes with the two writes of the one common triplet. -/
theorem splitmark_fatal_iff_empty_input_witness :
    ([(⟨cstr "AC", cstr "II"⟩ : kseq_t), ⟨cstr "GT", cstr "II"⟩] ≠ [] ∧
      [(⟨cstr "TT", cstr "II"⟩ : kseq_t)] ≠ [] ∧ [(⟨cstr "CA", cstr "II"⟩ : kseq_t)] ≠ []) ∧
    ∃ writes, splitmark_core_rescale ⟨10, 1, 0, 0⟩ (List.replicate 8 NUL)
        [⟨cstr "AC", cstr "II"⟩, ⟨cstr "GT", cstr "II"⟩] [⟨cstr "TT", cstr "II"⟩]
        [⟨cstr "CA", cstr "II"⟩] = splitmark_outcome.completed writes ∧
      writes.length = 2 * min (min [(⟨cstr "AC", cstr "II"⟩ : kseq_t), ⟨cstr "GT", cstr "II"⟩].length
        [(⟨cstr "TT", cstr "II"⟩ : kseq_t)].length) [(⟨cstr "CA", cstr "II"⟩ : kseq_t)].length :=
  ⟨by decide,
    (splitmark_fatal_iff_empty_input ⟨10, 1, 0, 0⟩ (List.replicate 8 NUL)
      [⟨cstr "AC", cstr "II"⟩, ⟨cstr "GT", cstr "II"⟩] [⟨cstr "TT", cstr "II"⟩]
      [⟨cstr "CA", cstr "II"⟩]).2 (by decide)⟩

/-- C24. Paired routing: in a run of `splitmark_core_rescale` that completes, the writes
come in pairs, one pair for each read triplet `t`: the record of mate 1 goes to
`tmp_out_handles_r1[bin]` and the record of mate 2 to `tmp_out_handles_r2[bin]` with one
and the same `bin`, and both carry the same barcode string, the one assembled for the
triplet from its three records, and the same flag; `bin` and the flag are `get_binner` and
`test_hp` of that string. -/
theorem paired_routing (settings : marksplit_settings_t) (barcode : List Char)
    (in1 in2 in_index : List kseq_t) (writes : List shard_write)
    (h : splitmark_core_rescale settings barcode in1 in2 in_index =
      splitmark_outcome.completed writes)
    (t : Nat) (ht : 2 * t < writes.length) :
    ∃ (seq1 seq2 seq_index : kseq_t) (buffer : List Char),
      in1[t]? = some seq1 ∧ in2[t]? = some seq2 ∧ in_index[t]? = some seq_index ∧
      (t = 0 → buffer = splitmark_barcode_first barcode seq1.seq seq_index.seq seq2.seq
        settings.offset settings.salt) ∧
      (t ≠ 0 → ∃ prev, buffer = splitmark_barcode_loop prev seq1.seq seq_index.seq seq2.seq
        settings.offset settings.salt) ∧
      writes[2 * t]? = some ⟨1, get_binner (c_string buffer) settings.n_nucs, seq1,
        c_string buffer, test_hp (c_string buffer) settings.hp_threshold⟩ ∧
      writes[2 * t + 1]? = some ⟨2, get_binner (c_string buffer) settings.n_nucs, seq2,
        c_string buffer, test_hp (c_string buffer) settings.hp_threshold⟩ := by
  cases in1 with
  | nil => simp [splitmark_core_rescale, kseq_read] at h
  | cons r1 in1 =>
    cases in2 with
    | nil => simp [splitmark_core_rescale, kseq_read] at h
    | cons r2 in2 =>
      cases in_index with
      | nil => simp [splitmark_core_rescale, kseq_read] at h
      | cons ri in_index =>
        simp only [splitmark_core_rescale, kseq_read, splitmark_outcome.completed.injEq] at h
        subst h
        cases t with
        | zero =>
          exact ⟨r1, r2, ri, _, by simp, by simp, by simp, fun _ => rfl, fun c => absurd rfl c,
            by simp [splitmark_route], by simp [splitmark_route]⟩
        | succ t =>
          have h2 : 2 * t < (splitmark_loop settings
              (splitmark_barcode_first barcode r1.seq ri.seq r2.seq
                settings.offset settings.salt) in1 in2 in_index).length := by
            simp only [List.length_append, splitmark_route, List.length_cons,
              List.length_nil] at ht
            omega
          obtain ⟨s1, s2, si, prev, e1, e2, e3, e4, e5⟩ :=
            splitmark_loop_pairs settings in1 _ in2 in_index t h2
          refine ⟨s1, s2, si, _, by simpa using e1, by simpa using e2, by simpa using e3,
            fun c => by omega, fun _ => ⟨prev, rfl⟩, ?_, ?_⟩
          · rw [← e4]
            simp only [splitmark_route]
            rw [show 2 * (t + 1) = 2 * t + 2 from by omega]
            exact pair_append_getElem_opt _ _ _ _
          · rw [← e5]
            simp only [splitmark_route]
            rw [show 2 * (t + 1) + 1 = 2 * t + 1 + 2 from by omega]
            exact pair_append_getElem_opt _ _ _ _

/-- Witness of C24: two triplets with salt 1 at offset 0; the second pair of writes goes to
bin 2 of both handle arrays with the barcode "GTC" and the flag '1'. -/
theorem paired_routing_witness :
    splitmark_core_rescale ⟨10, 1, 0, 1⟩ (List.replicate 8 NUL)
        [⟨cstr "AC", cstr "II"⟩, ⟨cstr "GT", cstr "II"⟩]
        [⟨cstr "TT", cstr "II"⟩, ⟨cstr "CG", cstr "II"⟩]
        [⟨cstr "C", cstr "I"⟩, ⟨cstr "T", cstr "I"⟩] =
      splitmark_outcome.completed
        [⟨1, 0, ⟨cstr "AC", cstr "II"⟩, cstr "ACT", '1'⟩,
         ⟨2, 0, ⟨cstr "TT", cstr "II"⟩, cstr "ACT", '1'⟩,
         ⟨1, 2, ⟨cstr "GT", cstr "II"⟩, cstr "GTC", '1'⟩,
         ⟨2, 2, ⟨cstr "CG", cstr "II"⟩, cstr "GTC", '1'⟩] ∧
    ∃ (seq1 seq2 seq_index : kseq_t) (buffer : List Char),
      [(⟨cstr "AC", cstr "II"⟩ : kseq_t), ⟨cstr "GT", cstr "II"⟩][1]? = some seq1 ∧
      [(⟨cstr "TT", cstr "II"⟩ : kseq_t), ⟨cstr "CG", cstr "II"⟩][1]? = some seq2 ∧
      [(⟨cstr "C", cstr "I"⟩ : kseq_t), ⟨cstr "T", cstr "I"⟩][1]? = some seq_index ∧
      (1 = 0 → buffer = splitmark_barcode_first (List.replicate 8 NUL) seq1.seq seq_index.seq
        seq2.seq 0 1) ∧
      (1 ≠ 0 → ∃ prev, buffer = splitmark_barcode_loop prev seq1.seq seq_index.seq seq2.seq 0 1) ∧
      [(⟨1, 0, ⟨cstr "AC", cstr "II"⟩, cstr "ACT", '1'⟩ : shard_write),
         ⟨2, 0, ⟨cstr "TT", cstr "II"⟩, cstr "ACT", '1'⟩,
         ⟨1, 2, ⟨cstr "GT", cstr "II"⟩, cstr "GTC", '1'⟩,
         ⟨2, 2, ⟨cstr "CG", cstr "II"⟩, cstr "GTC", '1'⟩][2 * 1]? =
        some ⟨1, get_binner (c_string buffer) 1, seq1, c_string buffer,
          test_hp (c_string buffer) 10⟩ ∧
      [(⟨1, 0, ⟨cstr "AC", cstr "II"⟩, cstr "ACT", '1'⟩ : shard_write),
         ⟨2, 0, ⟨cstr "TT", cstr "II"⟩, cstr "ACT", '1'⟩,
         ⟨1, 2, ⟨cstr "GT", cstr "II"⟩, cstr "GTC", '1'⟩,
         ⟨2, 2, ⟨cstr "CG", cstr "II"⟩, cstr "GTC", '1'⟩][2 * 1 + 1]? =
        some ⟨2, get_binner (c_string buffer) 1, seq2, c_string buffer,
          test_hp (c_string buffer) 10⟩ :=
  ⟨by decide,
    paired_routing ⟨10, 1, 0, 1⟩ (List.replicate 8 NUL)
      [⟨cstr "AC", cstr "II"⟩, ⟨cstr "GT", cstr "II"⟩]
      [⟨cstr "TT", cstr "II"⟩, ⟨cstr "CG", cstr "II"⟩]
      [⟨cstr "C", cstr "I"⟩, ⟨cstr "T", cstr "I"⟩] _ (by decide) 1 (by decide)⟩

theorem kroundup32_pow4 (k : Nat) (hk : k ≤ 14) : kroundup32 (ipow 4 k) = ipow 4 k := by
  interval_cases k <;> decide

/-- C22. The limit request of `fqms_main` is below the budget: for `n_nucs = k ≤ 14` (where
`n_handles * 3` does not overflow an `int`) and a descriptor limit below `3 * 4^k`, the
branch is taken and the value handed to `increase_nofile_limit`, and reported as the new
limit, is `kroundup32(4^k) = 4^k` itself, which is less than the `2 * 4^k` shard handles
that are opened and does not even meet the `3 * 4^k` that the check asks for. -/
theorem limit_request_below_budget (k fileno_limit : Nat) (hk : k ≤ 14)
    (hl : fileno_limit < 3 * 4 ^ k) :
    fqms_limit_request k fileno_limit = some (4 ^ k) ∧ 4 ^ k < 2 * 4 ^ k ∧
    ipow 4 k * 3 > 4 ^ k := by
  have hpos : 0 < 4 ^ k := pow_pos (by decide) k
  refine ⟨?_, by omega, by unfold ipow; omega⟩
  unfold fqms_limit_request
  simp only [kroundup32_pow4 k hk]
  unfold ipow
  rw [if_pos (by omega)]

/-- Witness of C22: `n_nucs = 5` under a descriptor limit of 1024; the request is 1024, for
2048 shard handles. -/
theorem limit_request_below_budget_witness :
    (5 ≤ 14 ∧ 1024 < 3 * 4 ^ 5) ∧
    fqms_limit_request 5 1024 = some 1024 ∧ 1024 < 2 * ipow 4 5 :=
  ⟨by decide, (limit_request_below_budget 5 1024 (by decide) (by decide)).1,
    (limit_request_below_budget 5 1024 (by decide) (by decide)).2.1⟩

theorem barcode_mem_view_split (comment : List Char) (off : Nat)
    (h : barcode_mem_view comment = some off) :
    ∃ a b c : List Char, comment = a ++ '|' :: (b ++ '|' :: c) ∧ '|' ∉ a ∧ '|' ∉ b ∧
      off = a.length + 1 + b.length + 4 := by
  by_cases h0 : '|' ∈ comment
  · obtain ⟨a, rest, e, ha⟩ := split_at_first '|' comment h0
    by_cases h1 : '|' ∈ rest
    · obtain ⟨b, c, e2, hb⟩ := split_at_first '|' rest h1
      refine ⟨a, b, c, by rw [e, e2], ha, hb, ?_⟩
      rw [e, e2, barcode_mem_view_two_pipes a b c ha hb] at h
      exact (Option.some.inj h).symm
    · rw [e, barcode_mem_view_one_pipe a rest ha h1] at h
      exact absurd h (by simp)
  · unfold barcode_mem_view at h
    rw [barcode_mem_view_loop_no_pipe comment 0 0 h0] at h
    exact absurd h (by simp)

/-- C29, the claim refuted: for the comment `a|b|` of 4 bytes `barcode_mem_view` returns
offset 7, and for `||` of 2 bytes offset 5: the view starts beyond the end of the comment. -/
theorem barcode_view_beyond_comment :
    barcode_mem_view (cstr "a|b|") = some 7 ∧ (cstr "a|b|").length = 4 ∧
    barcode_mem_view (cstr "||") = some 5 ∧ (cstr "||").length = 2 := by
  decide

/-- C29 amended: when `barcode_mem_view` returns a view, the comment is `a|b|c` with no
`|` in `a` and `b`, the returned offset is the index of the second `|` plus 4, it is at
most the comment's length plus 3, and it is inside the comment, at most the length,
exactly when at least three bytes follow the second `|`. -/
theorem barcode_view_bound (comment : List Char) (off : Nat)
    (h : barcode_mem_view comment = some off) :
    off ≤ comment.length + 3 ∧
    ∃ a b c : List Char, comment = a ++ '|' :: (b ++ '|' :: c) ∧ '|' ∉ a ∧ '|' ∉ b ∧
      off = (a.length + 1 + b.length) + 4 ∧ comment.getD (a.length + 1 + b.length) NUL = '|' ∧
      (off ≤ comment.length ↔ 3 ≤ c.length) := by
  obtain ⟨a, b, c, e, ha, hb, ho⟩ := barcode_mem_view_split comment off h
  have hlen : comment.length = a.length + 1 + b.length + 1 + c.length := by
    rw [e]
    simp only [List.length_append, List.length_cons]
    omega
  refine ⟨by omega, a, b, c, e, ha, hb, ho, ?_, by omega⟩
  rw [e, show a ++ '|' :: (b ++ '|' :: c) = (a ++ '|' :: b) ++ '|' :: c from by simp]
  rw [List.getD_eq_getElem?_getD, List.getElem?_append_right (by simp; omega)]
  have hz : a.length + 1 + b.length - (a ++ '|' :: b).length = 0 := by
    simp only [List.length_append, List.length_cons]
    omega
  rw [hz]
  simp

/-- Witness of C29 amended: the comment `|FP=1|BS=ACGT`, where the view is at offset 9 of
13 bytes. -/
theorem barcode_view_bound_witness :
    barcode_mem_view (cstr "|FP=1|BS=ACGT") = some 9 ∧
    9 ≤ (cstr "|FP=1|BS=ACGT").length + 3 ∧
    ∃ a b c : List Char, cstr "|FP=1|BS=ACGT" = a ++ '|' :: (b ++ '|' :: c) ∧ '|' ∉ a ∧
      '|' ∉ b ∧ 9 = (a.length + 1 + b.length) + 4 ∧
      (cstr "|FP=1|BS=ACGT").getD (a.length + 1 + b.length) NUL = '|' ∧
      (9 ≤ (cstr "|FP=1|BS=ACGT").length ↔ 3 ≤ c.length) :=
  ⟨by decide, barcode_view_bound (cstr "|FP=1|BS=ACGT") 9 (by decide)⟩

theorem pow2_eq_zpow (k : Int) : pow2 k = (2 : ℚ) ^ k := by
  unfold pow2
  split
  · rename_i h
    obtain ⟨n, rfl⟩ := Int.eq_ofNat_of_zero_le h
    simp
  · rename_i h
    obtain ⟨n, hn⟩ := Int.eq_ofNat_of_zero_le (show 0 ≤ -k by omega)
    have hk : k = -(n : Int) := by omega
    subst hk
    simp

theorem pow2_pos (k : Int) : 0 < pow2 k := by
  rw [pow2_eq_zpow]
  exact zpow_pos (by norm_num) k

theorem pow2_add (a b : Int) : pow2 (a + b) = pow2 a * pow2 b := by
  simp only [pow2_eq_zpow]
  exact zpow_add₀ (by norm_num) a b

theorem bit_length_loop_spec (fuel : Nat) :
    ∀ n : Nat, n ≠ 0 → n ≤ fuel →
      2 ^ bit_length_loop fuel n ≤ n ∧ n < 2 ^ (bit_length_loop fuel n + 1) := by
  induction fuel with
  | zero => intro n h0 hle; omega
  | succ fuel ih =>
    intro n h0 hle
    unfold bit_length_loop
    by_cases h2 : 2 ≤ n
    · rw [if_pos h2]
      have hdiv : n / 2 ≠ 0 := by omega
      have hle2 : n / 2 ≤ fuel := by omega
      obtain ⟨l, u⟩ := ih (n / 2) hdiv hle2
      constructor
      · rw [pow_succ]; omega
      · rw [pow_succ]; omega
    · rw [if_neg h2]
      constructor
      · simp; omega
      · simp; omega

theorem binary_exponent_spec (a : ℚ) (ha : 0 < a) :
    pow2 (binary_exponent a) ≤ a ∧ a < pow2 (binary_exponent a + 1) := by
  have hnum : 0 < a.num := Rat.num_pos.mpr ha
  obtain ⟨n, hn⟩ := Int.eq_ofNat_of_zero_le (le_of_lt hnum)
  have hn0 : n ≠ 0 := by
    intro h; rw [h] at hn; omega
  have hnat : a.num.natAbs = n := by rw [hn]; rfl
  have hd0 : a.den ≠ 0 := a.den_ne_zero
  obtain ⟨ln, un⟩ := bit_length_loop_spec n n hn0 (le_refl _)
  obtain ⟨ld, ud⟩ := bit_length_loop_spec a.den a.den hd0 (le_refl _)
  have hval : a = (n : ℚ) / (a.den : ℚ) := by
    have h := (Rat.num_div_den a).symm
    rw [hn, Int.cast_natCast] at h
    exact h
  have hdpos : (0 : ℚ) < (a.den : ℚ) := by exact_mod_cast Nat.pos_of_ne_zero hd0
  have lnq : ((2 : ℚ) ^ bit_length_loop n n) ≤ (n : ℚ) := by exact_mod_cast ln
  have unq : (n : ℚ) < (2 : ℚ) ^ (bit_length_loop n n + 1) := by exact_mod_cast un
  have ldq : ((2 : ℚ) ^ bit_length_loop a.den a.den) ≤ (a.den : ℚ) := by exact_mod_cast ld
  have udq : (a.den : ℚ) < (2 : ℚ) ^ (bit_length_loop a.den a.den + 1) := by exact_mod_cast ud
  unfold binary_exponent
  rw [hnat]
  simp only []
  generalize bit_length_loop n n = N at *
  generalize bit_length_loop a.den a.den = D at *
  have hp : ∀ k : Nat, (0 : ℚ) < (2 : ℚ) ^ k := fun k => pow_pos (by norm_num) k
  have e1 : pow2 ((N : Int) - (D : Int) + 1) = (2 : ℚ) ^ (N + 1) / (2 : ℚ) ^ D := by
    have he : (N : Int) - (D : Int) + 1 = ((N + 1 : Nat) : Int) - ((D : Nat) : Int) := by
      push_cast; ring
    rw [pow2_eq_zpow, he, zpow_sub₀ (by norm_num), zpow_natCast, zpow_natCast]
  have e2 : pow2 ((N : Int) - (D : Int) - 1) = (2 : ℚ) ^ N / (2 : ℚ) ^ (D + 1) := by
    have he : (N : Int) - (D : Int) - 1 = ((N : Nat) : Int) - ((D + 1 : Nat) : Int) := by
      push_cast; ring
    rw [pow2_eq_zpow, he, zpow_sub₀ (by norm_num), zpow_natCast, zpow_natCast]
  by_cases hc : pow2 ((N : Int) - (D : Int)) ≤ a
  · rw [if_pos hc]
    refine ⟨hc, ?_⟩
    rw [e1, hval, div_lt_div_iff₀ hdpos (hp D)]
    calc (n : ℚ) * 2 ^ D < 2 ^ (N + 1) * 2 ^ D := by
          exact mul_lt_mul_of_pos_right unq (hp D)
      _ ≤ 2 ^ (N + 1) * (a.den : ℚ) := by
          exact mul_le_mul_of_nonneg_left ldq (le_of_lt (hp _))
  · rw [if_neg hc]
    rw [show (N : Int) - (D : Int) - 1 + 1 = (N : Int) - (D : Int) by ring]
    refine ⟨?_, lt_of_not_le hc⟩
    rw [e2, hval, div_le_div_iff₀ (hp _) hdpos]
    calc (2 : ℚ) ^ N * (a.den : ℚ) ≤ 2 ^ N * 2 ^ (D + 1) := by
          exact mul_le_mul_of_nonneg_left (le_of_lt udq) (le_of_lt (hp _))
      _ ≤ (n : ℚ) * 2 ^ (D + 1) := by
          exact mul_le_mul_of_nonneg_right lnq (le_of_lt (hp _))

theorem round_double_spec (x : ℚ) (hx : x ≠ 0) :
    ∃ n : Int, round_double x = (n : ℚ) * pow2 (binary_exponent |x| - 52) ∧
      |(n : ℚ) - x / pow2 (binary_exponent |x| - 52)| ≤ 1 / 2 ∧ (0 < x → 0 ≤ n) := by
  unfold round_double
  rw [if_neg hx]
  simp only []
  generalize hq : x / pow2 (binary_exponent |x| - 52) = q
  have hfl : ((⌊q⌋ : Int) : ℚ) ≤ q := Int.floor_le q
  have hfu : q < ((⌊q⌋ : Int) : ℚ) + 1 := Int.lt_floor_add_one q
  have hpos : 0 < x → 0 ≤ ⌊q⌋ := by
    intro h
    apply Int.floor_nonneg.mpr
    rw [← hq]
    exact le_of_lt (div_pos h (pow2_pos _))
  by_cases h1 : q - ((⌊q⌋ : Int) : ℚ) < 1 / 2
  · refine ⟨⌊q⌋, by rw [if_pos h1], ?_, hpos⟩
    rw [abs_le]; constructor <;> linarith
  · by_cases h2 : 1 / 2 < q - ((⌊q⌋ : Int) : ℚ)
    · refine ⟨⌊q⌋ + 1, by rw [if_neg h1, if_pos h2], ?_, fun h => by have := hpos h; omega⟩
      rw [abs_le]; push_cast; constructor <;> linarith
    · by_cases h3 : ⌊q⌋ % 2 = 0
      · refine ⟨⌊q⌋, by rw [if_neg h1, if_neg h2, if_pos h3], ?_, hpos⟩
        rw [abs_le]; constructor <;> linarith
      · refine ⟨⌊q⌋ + 1, by rw [if_neg h1, if_neg h2, if_neg h3], ?_,
          fun h => by have := hpos h; omega⟩
        rw [abs_le]; push_cast; constructor <;> linarith

/-- The value of `round_double` at `x ≠ 0` is a number with a 53-bit significand, at most
half a unit in the last place away from `x`. -/
theorem round_double_significand (x : ℚ) (hx : x ≠ 0) :
    ∃ n : Int, round_double x = (n : ℚ) * pow2 (binary_exponent |x| - 52) ∧
      2 ^ 52 ≤ |n| ∧ |n| ≤ 2 ^ 53 ∧
      |round_double x - x| ≤ pow2 (binary_exponent |x| - 52) / 2 := by
  obtain ⟨n, e, hn, -⟩ := round_double_spec x hx
  obtain ⟨hl, hu⟩ := binary_exponent_spec |x| (abs_pos.mpr hx)
  have hpu := pow2_pos (binary_exponent |x| - 52)
  have s1 : pow2 (binary_exponent |x|) = pow2 (binary_exponent |x| - 52) * 2 ^ 52 := by
    have h := pow2_add (binary_exponent |x| - 52) 52
    rw [show binary_exponent |x| - 52 + 52 = binary_exponent |x| by ring] at h
    rw [h]
    congr 1
  have s2 : pow2 (binary_exponent |x| + 1) = pow2 (binary_exponent |x| - 52) * 2 ^ 53 := by
    have h := pow2_add (binary_exponent |x| - 52) 53
    rw [show binary_exponent |x| - 52 + 53 = binary_exponent |x| + 1 by ring] at h
    rw [h]
    congr 1
  rw [s1] at hl
  rw [s2] at hu
  generalize pow2 (binary_exponent |x| - 52) = u at *
  have hq1 : (2 : ℚ) ^ 52 ≤ |x / u| := by
    rw [abs_div, abs_of_pos hpu, le_div_iff₀ hpu]
    linarith
  have hq2 : |x / u| < (2 : ℚ) ^ 53 := by
    rw [abs_div, abs_of_pos hpu, div_lt_iff₀ hpu]
    linarith
  have hxu : x / u * u = x := div_mul_cancel₀ x (ne_of_gt hpu)
  refine ⟨n, e, ?_, ?_, ?_⟩
  · have h : (2 : ℚ) ^ 52 - 1 / 2 ≤ |(n : ℚ)| := by
      have := abs_sub_abs_le_abs_sub (x / u) (n : ℚ)
      rw [abs_sub_comm] at this
      linarith
    have h2 : ((2 ^ 52 - 1 : Int) : ℚ) < ((|n| : Int) : ℚ) := by
      push_cast
      linarith
    have h3 : (2 ^ 52 - 1 : Int) < |n| := by exact_mod_cast h2
    omega
  · have h : |(n : ℚ)| < (2 : ℚ) ^ 53 + 1 / 2 := by
      have := abs_sub_abs_le_abs_sub (n : ℚ) (x / u)
      linarith
    have h2 : ((|n| : Int) : ℚ) < ((2 ^ 53 + 1 : Int) : ℚ) := by
      push_cast
      linarith
    have h3 : |n| < (2 ^ 53 + 1 : Int) := by exact_mod_cast h2
    omega
  · have hd : round_double x - x = ((n : ℚ) - x / u) * u := by
      rw [e, sub_mul, hxu]
    rw [hd, abs_mul, abs_of_pos hpu]
    calc |(n : ℚ) - x / u| * u ≤ 1 / 2 * u := mul_le_mul_of_nonneg_right hn (le_of_lt hpu)
      _ = u / 2 := by ring

end BMF
